import Mathlib

/-!
# Verification of the flux-fov propagation engine

A shallow embedding of the field-of-vision engine in `src/lib.rs`:

* `marchRayPoints` / `marchRay` embed `march_ray`;
* `rayAccumGo`, `lutCounts`, `lutFromCounts`, `calcFluxLut` and
  `FluxField.new` embed the look-up-table construction
  (`calc_flux_lut`, `FluxField::new`);
* `Fov`, `Fov.new`, `Fov.at'`, `Fov.asSlice` embed the grid type and
  its accessors;
* `calcEdgeGo`, `interiorRowGo`, `interiorColsGo`, `Fov.update` embed
  the `Helper` traversal (`calc_origin`, `calc_edge`, `calc_interior`,
  `Fov::update`).

Machine integers (`i32`, `isize`, `usize`) are modelled by `ℤ` / `ℕ`
(no overflow occurs for any radius that is physically constructible,
since the grid allocation itself bounds the radius far below `2^31`).
The raw pointers of the Rust `Helper` are modelled by flat indices
into a total map `ℤ → T`; every pointer `offset` becomes integer
addition, and every write is recorded in a trace of `Event`s so that
the sequence of calls to the caller's update function is observable.
`f32` flux weights are modelled by `ℚ`.  The ray end points
`(round(R·cos θ), round(R·sin θ))`, the only place where floating
point trigonometry enters the algorithm, are passed in as an abstract
function `targets : ℕ → ℕ × ℕ`; everything downstream of them is
exact integer arithmetic and is embedded faithfully.
-/

set_option maxHeartbeats 1600000

namespace FluxFov

/-- One ray-count accumulator cell of `calc_flux_lut`
(struct `RayCount { jump: i32, total: i32 }`). -/
structure RayCount where
  jump : ℤ
  total : ℤ
deriving DecidableEq

/-- The counts buffer `Vec<RayCount>` is modelled as a total map from
flat index to cell; `countsWrite` is a single store. -/
def countsWrite (c : ℕ → RayCount) (i : ℕ) (v : RayCount) : ℕ → RayCount :=
  fun j => if j = i then v else c j

/-- The state transition of one step of the general (error-accumulating)
branch of `march_ray`: state is `(r, step_y)`; the step performs
`r += target_y; if r >= target_x { step_y += 1; r -= target_x }`. -/
def marchStep (targetX targetY : ℕ) (s : ℕ × ℕ) : ℕ × ℕ :=
  let r := s.1 + targetY
  if targetX ≤ r then (r - targetX, s.2 + 1) else (r, s.2)

/-- The `(r, step_y)` state of the general branch of `march_ray` after
`i` steps; the initial state is `(target_x / 2, 0)`. -/
def marchState (targetX targetY : ℕ) : ℕ → ℕ × ℕ
  | 0 => (targetX / 2, 0)
  | i + 1 => marchStep targetX targetY (marchState targetX targetY i)

/-- The points emitted by the general branch of `march_ray`, starting at
`x = stepX` with state `s`, for `n` more steps. -/
def marchGeneralGo (targetX targetY : ℕ) : ℕ → ℕ → ℕ × ℕ → List (ℕ × ℕ)
  | 0, _, _ => []
  | n + 1, stepX, s =>
    let s' := marchStep targetX targetY s
    (stepX, s'.2) :: marchGeneralGo targetX targetY n (stepX + 1) s'

/-- The list of points `march_ray(limit_x, target_x, target_y, f)` passes
to `f`, in call order: the horizontal branch (`target_y == 0`), the
diagonal branch (`target_y == target_x`), and the general DDA branch. -/
def marchRayPoints (limitX targetX targetY : ℕ) : List (ℕ × ℕ) :=
  if targetY = 0 then
    (List.range (limitX + 1)).map fun i => (i, 0)
  else if targetY = targetX then
    (List.range (limitX + 1)).map fun i => (i, i)
  else
    (0, 0) :: marchGeneralGo targetX targetY limitX 1 (targetX / 2, 0)

/-- `march_ray` itself: `assert!(target_y <= target_x)` aborts (modelled
by `none`) on illegal arguments, otherwise the march is performed. -/
def marchRay (limitX targetX targetY : ℕ) : Option (List (ℕ × ℕ)) :=
  if targetY ≤ targetX then some (marchRayPoints limitX targetX targetY) else none

/-- The ray-count accumulation performed by the closure that
`calc_flux_lut` passes to `march_ray`: for every visited point `(x, y)`
with `1 < x && 0 < y && y < x`, bump `total` of `counts[(y-1)*wd + x-2]`
and also bump `jump` if `last_y != y`; `last_y` tracks the previous
point's `y` and starts at `0` for each ray. -/
def rayAccumGo (wd : ℕ) : List (ℕ × ℕ) → (ℕ → RayCount) → ℕ → (ℕ → RayCount)
  | [], c, _ => c
  | (x, y) :: ps, c, lastY =>
    let c' :=
      if 1 < x ∧ 0 < y ∧ y < x then
        let ix := (y - 1) * wd + x - 2
        let rc := c ix
        let rc := { rc with total := rc.total + 1 }
        let rc := if lastY ≠ y then { rc with jump := rc.jump + 1 } else rc
        countsWrite c ix rc
      else c
    rayAccumGo wd ps c' y

/-- The fully accumulated counts buffer of `calc_flux_lut`: all
`ray_count` rays marched with `limit_x = flux_field_radius`, each ray's
end point supplied by `targets` (which models
`(round(cos θ·R), round(sin θ·R))`). -/
def lutCounts (targets : ℕ → ℕ × ℕ) (fluxFieldRadius rayCount : ℕ) : ℕ → RayCount :=
  (List.range rayCount).foldl
    (fun c i =>
      rayAccumGo (fluxFieldRadius - 1)
        (marchRayPoints fluxFieldRadius (targets i).1 (targets i).2) c 0)
    fun _ => ⟨0, 0⟩

/-- The emission loop at the end of `calc_flux_lut`:
`for x in 0..(radius-1) { for y in 0..(x+1) { push(jump/total of counts[y*wd+x]) } }`. -/
def lutFromCounts (fluxFieldRadius : ℕ) (counts : ℕ → RayCount) : List ℚ :=
  (List.range (fluxFieldRadius - 1)).flatMap fun x =>
    (List.range (x + 1)).map fun y =>
      let rc := counts (y * (fluxFieldRadius - 1) + x)
      (rc.jump : ℚ) / (rc.total : ℚ)

/-- `calc_flux_lut(radius, ray_radius, ray_count)`.  The three leading
`assert!`s (and the `assert!` inside `march_ray`, hoisted here as a check
of every ray's end point) are modelled by `none`.  The floating point
guard `ray_radius as f32 / radius as f32 >= SQRT_2` is rendered exactly
on the rationals by squaring: `2·radius² ≤ ray_radius²`. -/
def calcFluxLut (targets : ℕ → ℕ × ℕ) (fluxFieldRadius rayRadius rayCount : ℕ) :
    Option (List ℚ) :=
  if ¬ 1 < rayCount then none
  else if ¬ 0 < fluxFieldRadius then none
  else if ¬ 2 * fluxFieldRadius ^ 2 ≤ rayRadius ^ 2 then none
  else if ¬ ∀ i ∈ List.range rayCount, (targets i).2 ≤ (targets i).1 then none
  else some (lutFromCounts fluxFieldRadius (lutCounts targets fluxFieldRadius rayCount))

/-- struct `FluxField { radius: usize, flux_lut: Vec<f32> }`. -/
structure FluxField where
  radius : ℕ
  fluxLut : List ℚ
deriving DecidableEq

/-- `FluxField::new(radius)`, with `ray_radius = 100 * radius` and
`ray_count = 10_000`; `targets` models the trigonometric ray end-point
computation. -/
def FluxField.new (targets : ℕ → ℕ × ℕ) (radius : ℕ) : Option FluxField :=
  (calcFluxLut targets radius (100 * radius) 10000).map fun lut => ⟨radius, lut⟩

/-- struct `Influx<T> { weight: f32, dx: i32, dy: i32, value: T }`. -/
structure Influx (T : Type) where
  weight : ℚ
  dx : ℤ
  dy : ℤ
  value : T
deriving DecidableEq

/-- struct `Fov<T, X>`; the shared flux field reference is embedded by
value, and the backing `Vec<T>` by a total map on flat indices. -/
structure Fov (T : Type) where
  fluxField : FluxField
  radius : ℤ
  width : ℤ
  ixOrigin : ℤ
  data : ℤ → T

/-- `Fov::new(flux_field, radius, init)`; the
`assert!(radius <= flux_field.radius)` is modelled by `none`. -/
def Fov.new (T : Type) (ff : FluxField) (radius : ℕ) (init : T) : Option (Fov T) :=
  if radius ≤ ff.radius then
    let r : ℤ := radius
    let width := r * 2 + 1
    some ⟨ff, r, width, r * (width + 1), fun _ => init⟩
  else none

/-- `Fov::at(x, y)`: read `data[(ix_origin + width*y + x) as usize]`.
Rust panics when the (cast-to-usize) index is out of range `[0, width²)`;
this is modelled by `none`.  There is no coordinate range check. -/
def Fov.at' {T : Type} (fov : Fov T) (x y : ℤ) : Option T :=
  let ix := fov.ixOrigin + fov.width * y + x
  if 0 ≤ ix ∧ ix < fov.width * fov.width then some (fov.data ix) else none

/-- `Fov::as_slice()`: the backing buffer in flat-index order. -/
def Fov.asSlice {T : Type} (fov : Fov T) : List T :=
  (List.range (fov.width * fov.width).toNat).map fun i => fov.data (i : ℤ)

/-- The type of the caller-supplied update function
`F: FnMut(i32, i32, &[Influx<&T>]) -> T`. -/
def UpdateFn (T : Type) : Type := ℤ → ℤ → List (Influx T) → T

/-- A single store into the flat grid (one `*ptr = v`). -/
def write {T : Type} (g : ℤ → T) (p : ℤ) (v : T) : ℤ → T :=
  fun q => if q = p then v else g q

/-- One recorded invocation of the caller's update function during
`Fov::update`: the flat index written, the world coordinates and influx
list passed to the function, and the value it returned (which is the
value stored). -/
structure Event (T : Type) where
  pos : ℤ
  x : ℤ
  y : ℤ
  influxes : List (Influx T)
  value : T
deriving DecidableEq

/-- Replay the writes of a list of events over a grid. -/
def applyEvents {T : Type} (g : ℤ → T) (evs : List (Event T)) : ℤ → T :=
  evs.foldl (fun g' e => write g' e.pos e.value) g

/-- `Helper::calc_edge`'s loop: walk `n` more steps of stride `stride`
from world position `(x, y)` and pointer `curr`; each step reads the
previous cell through a reference (`prev = &*curr`), advances the
pointer, calls the update function with a single full-weight influx and
stores the result.  References into the grid are dereferenced when the
update function is called, so the influx value is the grid content at
the referenced index at call time. -/
def calcEdgeGo {T : Type} (f : UpdateFn T) (dx dy stride : ℤ) :
    ℕ → ℤ → ℤ → ℤ → (ℤ → T) → ((ℤ → T) × List (Event T))
  | 0, _, _, _, g => (g, [])
  | n + 1, x, y, curr, g =>
    let x' := x + dx
    let y' := y + dy
    let prev := g curr
    let curr' := curr + stride
    let infl : List (Influx T) := [⟨1, dx, dy, prev⟩]
    let v := f x' y' infl
    let rest := calcEdgeGo f dx dy stride n x' y' curr' (write g curr' v)
    (rest.1, ⟨curr', x', y', infl, v⟩ :: rest.2)

/-- `Helper::calc_edge(dx, dy, stride)`: `radius` steps starting at the
origin cell. -/
def calcEdge {T : Type} (f : UpdateFn T) (radius origin dx dy stride : ℤ)
    (g : ℤ → T) : (ℤ → T) × List (Event T) :=
  calcEdgeGo f dx dy stride radius.toNat 0 0 origin g

/-- The inner loop `for v in 1..u` of `Helper::calc_interior`.  State:
`v`, the write pointer `curr`, the flat index `stayPos` currently
referenced by `influx_stay`, the read pointer `influxPtr`, the LUT
cursor `lutIx` and the grid.  Each iteration advances `curr` and
`influx_ptr` by `v_stride`, reads the two influx references, calls the
update function with the `stay`-weighted and `jump`-weighted influxes
exactly as the source builds them, stores the result, and shifts
`influx_stay` to the jump reference. -/
def interiorRowGo {T : Type} (f : UpdateFn T) (mxu mxv myu myv vs : ℤ)
    (lut : List ℚ) (u : ℤ) :
    ℕ → ℤ → ℤ → ℤ → ℤ → ℕ → (ℤ → T) → ((ℤ → T) × List (Event T) × ℕ)
  | 0, _, _, _, _, lutIx, g => (g, [], lutIx)
  | n + 1, v, curr, stayPos, influxPtr, lutIx, g =>
    let curr' := curr + vs
    let influxPtr' := influxPtr + vs
    let x := mxu * u + mxv * v
    let y := myu * u + myv * v
    let w := lut.getD lutIx 0
    let infl : List (Influx T) :=
      [⟨w, -mxu, -myu, g stayPos⟩,
       ⟨1 - w, -(mxu + mxv), -(myu + myv), g influxPtr'⟩]
    let val := f x y infl
    let rest := interiorRowGo f mxu mxv myu myv vs lut u n (v + 1) curr'
      influxPtr' influxPtr' (lutIx + 1) (write g curr' val)
    (rest.1, ⟨curr', x, y, infl, val⟩ :: rest.2.1, rest.2.2)

/-- The outer loop `for u in 2..radius+1` of `Helper::calc_interior`.
State: `u`, the column pointer `colPtr` (pointing at octant cell
`(u-1, 0)` when column `u` starts), the LUT cursor and the grid. -/
def interiorColsGo {T : Type} (f : UpdateFn T) (mxu mxv myu myv us vs : ℤ)
    (lut : List ℚ) :
    ℕ → ℤ → ℤ → ℕ → (ℤ → T) → ((ℤ → T) × List (Event T) × ℕ)
  | 0, _, _, lutIx, g => (g, [], lutIx)
  | n + 1, u, colPtr, lutIx, g =>
    let influxPtr := colPtr
    let colPtr' := colPtr + us
    let row := interiorRowGo f mxu mxv myu myv vs lut u (u - 1).toNat 1 colPtr'
      influxPtr influxPtr lutIx g
    let rest := interiorColsGo f mxu mxv myu myv us vs lut n (u + 1) colPtr'
      row.2.2 row.1
    (rest.1, row.2.1 ++ rest.2.1, rest.2.2)

/-- `Helper::calc_interior(m_xu, m_xv, m_yu, m_yv, u_stride, v_stride)`:
columns `u = 2, …, radius`, starting with `col_ptr = origin + u_stride`
and `lut_ix = 0`. -/
def calcInterior {T : Type} (f : UpdateFn T) (mxu mxv myu myv us vs radius origin : ℤ)
    (lut : List ℚ) (g : ℤ → T) : (ℤ → T) × List (Event T) × ℕ :=
  interiorColsGo f mxu mxv myu myv us vs lut (radius - 1).toNat 2 (origin + us) 0 g

/-- The eight `calc_edge(dx, dy, stride)` argument triples of
`Fov::update`, in call order. -/
def edgeDirs (w : ℤ) : List (ℤ × ℤ × ℤ) :=
  [(1, 0, 1), (1, 1, w + 1), (0, 1, w), (-1, 1, w - 1),
   (-1, 0, -1), (-1, -1, -w - 1), (0, -1, -w), (1, -1, -w + 1)]

/-- The eight `calc_interior(m_xu, m_xv, m_yu, m_yv, u_stride, v_stride)`
argument tuples of `Fov::update`, in call order. -/
def octantParams (w : ℤ) : List (ℤ × ℤ × ℤ × ℤ × ℤ × ℤ) :=
  [(1, 0, 0, 1, 1, w), (0, 1, 1, 0, w, 1), (0, -1, 1, 0, w, -1),
   (-1, 0, 0, 1, -1, w), (-1, 0, 0, -1, -1, -w), (0, -1, -1, 0, -w, -1),
   (0, 1, -1, 0, -w, 1), (1, 0, 0, -1, 1, -w)]

/-- The sequence of `calc_edge` calls of `Fov::update`: each call
threads the grid of the previous one, and the traces are concatenated
in call order. -/
def edgeFold {T : Type} (f : UpdateFn T) (radius origin : ℤ) :
    List (ℤ × ℤ × ℤ) → (ℤ → T) → ((ℤ → T) × List (Event T))
  | [], g => (g, [])
  | d :: ds, g =>
    let s := calcEdge f radius origin d.1 d.2.1 d.2.2 g
    let rest := edgeFold f radius origin ds s.1
    (rest.1, s.2 ++ rest.2)

/-- The sequence of `calc_interior` calls of `Fov::update`: each call
threads the grid of the previous one, and the traces are concatenated
in call order. -/
def octantFold {T : Type} (f : UpdateFn T) (radius origin : ℤ) (lut : List ℚ) :
    List (ℤ × ℤ × ℤ × ℤ × ℤ × ℤ) → (ℤ → T) → ((ℤ → T) × List (Event T))
  | [], g => (g, [])
  | p :: ps, g =>
    let t := calcInterior f p.1 p.2.1 p.2.2.1 p.2.2.2.1 p.2.2.2.2.1 p.2.2.2.2.2
      radius origin lut g
    let rest := octantFold f radius origin lut ps t.1
    (rest.1, t.2.1 ++ rest.2)

/-- `Fov::update(f)`: the origin cell, then (if `radius > 0`) the eight
axis/diagonal rays (`edgeDirs`), then (if `radius > 1`) the eight octant
interiors (`octantParams`), in the source's order.  Returns the updated
field together with the trace of all calls made to `f`. -/
def Fov.update {T : Type} (fov : Fov T) (f : UpdateFn T) :
    Fov T × List (Event T) :=
  let origin := fov.ixOrigin
  let w := fov.width
  let r := fov.radius
  let lut := fov.fluxField.fluxLut
  let v0 := f 0 0 []
  let g1 := write fov.data origin v0
  let ev0 : Event T := ⟨origin, 0, 0, [], v0⟩
  if 0 < r then
    let s := edgeFold f r origin (edgeDirs w) g1
    if 1 < r then
      let t := octantFold f r origin lut (octantParams w) s.1
      ({ fov with data := t.1 }, ev0 :: (s.2 ++ t.2))
    else
      ({ fov with data := s.1 }, ev0 :: s.2)
  else ({ fov with data := g1 }, [ev0])

/-- Well-formedness of a `Fov` value: the derived fields `width` and
`ix_origin` hold the values `Fov::new` computes from `radius`. -/
def Fov.WF {T : Type} (fov : Fov T) : Prop :=
  0 ≤ fov.radius ∧ fov.width = 2 * fov.radius + 1 ∧
    fov.ixOrigin = fov.radius * (fov.width + 1)

theorem Fov.new_wf {T : Type} (ff : FluxField) (radius : ℕ) (init : T)
    (fov : Fov T) (h : Fov.new T ff radius init = some fov) : fov.WF := by
  unfold Fov.new at h
  split at h
  · cases h
    refine ⟨by positivity, by ring, by ring⟩
  · cases h

/-! ## Basic facts about grid writes and event replay -/

theorem write_self {T : Type} (g : ℤ → T) (p : ℤ) (v : T) : write g p v p = v := by
  simp [write]

theorem write_ne {T : Type} (g : ℤ → T) (p q : ℤ) (v : T) (h : q ≠ p) :
    write g p v q = g q := by
  simp [write, h]

theorem applyEvents_nil {T : Type} (g : ℤ → T) : applyEvents g [] = g := rfl

theorem applyEvents_cons {T : Type} (g : ℤ → T) (e : Event T) (evs : List (Event T)) :
    applyEvents g (e :: evs) = applyEvents (write g e.pos e.value) evs := rfl

theorem applyEvents_append {T : Type} (g : ℤ → T) (l₁ l₂ : List (Event T)) :
    applyEvents g (l₁ ++ l₂) = applyEvents (applyEvents g l₁) l₂ := by
  simp [applyEvents, List.foldl_append]

/-- A grid position untouched by every event of a list keeps its value
across replay. -/
theorem applyEvents_untouched {T : Type} (g : ℤ → T) (evs : List (Event T)) (p : ℤ)
    (h : ∀ e ∈ evs, e.pos ≠ p) : applyEvents g evs p = g p := by
  induction evs generalizing g with
  | nil => rfl
  | cons e es ih =>
    rw [applyEvents_cons, ih _ fun e' he' => h e' (List.mem_cons_of_mem e he')]
    exact write_ne _ _ _ _ fun hp => h e (List.mem_cons_self e es) hp.symm

/-- If the positions written by a trace are pairwise distinct, replaying
the trace stores each event's value at its position. -/
theorem applyEvents_nodup {T : Type} (g : ℤ → T) (evs : List (Event T))
    (h : (evs.map fun e => e.pos).Nodup) (e : Event T) (he : e ∈ evs) :
    applyEvents g evs e.pos = e.value := by
  induction evs generalizing g with
  | nil => cases he
  | cons e0 es ih =>
    rw [List.map_cons, List.nodup_cons] at h
    rcases List.mem_cons.mp he with rfl | hmem
    · rw [applyEvents_cons, applyEvents_untouched]
      · exact write_self ..
      · intro e' he' hp
        exact h.1 (hp ▸ List.mem_map_of_mem (fun e'' => e''.pos) he')
    · exact ih _ h.2 hmem

/-- Pair every event of a trace with the grid as it stood when the
corresponding call to the update function was made. -/
def traceWithStates {T : Type} (g : ℤ → T) : List (Event T) → List ((ℤ → T) × Event T)
  | [] => []
  | e :: evs => (g, e) :: traceWithStates (write g e.pos e.value) evs

theorem traceWithStates_append {T : Type} (g : ℤ → T) (l₁ l₂ : List (Event T)) :
    traceWithStates g (l₁ ++ l₂) =
      traceWithStates g l₁ ++ traceWithStates (applyEvents g l₁) l₂ := by
  induction l₁ generalizing g with
  | nil => rfl
  | cons e es ih => simp [traceWithStates, ih, applyEvents_cons]

theorem traceWithStates_map_snd {T : Type} (g : ℤ → T) (evs : List (Event T)) :
    (traceWithStates g evs).map Prod.snd = evs := by
  induction evs generalizing g with
  | nil => rfl
  | cons e es ih => simp [traceWithStates, ih]

/-! ## The ray-marching algorithm (`march_ray`) -/

/-- The `y` coordinate that `march_ray(_, target_x, target_y, f)` passes
to `f` at its `i`-th call (`x = i`), in each of the three branches. -/
def marchY (targetX targetY i : ℕ) : ℕ :=
  if targetY = 0 then 0
  else if targetY = targetX then i
  else (marchState targetX targetY i).2

theorem marchGeneralGo_eq (targetX targetY : ℕ) :
    ∀ (n j : ℕ), marchGeneralGo targetX targetY n (j + 1) (marchState targetX targetY j) =
      (List.range' (j + 1) n).map fun i => (i, (marchState targetX targetY i).2) := by
  intro n
  induction n with
  | zero => intro j; rfl
  | succ n ih =>
    intro j
    show (j + 1, (marchStep targetX targetY (marchState targetX targetY j)).2) ::
        marchGeneralGo targetX targetY n (j + 1 + 1)
          (marchStep targetX targetY (marchState targetX targetY j)) = _
    rw [show marchStep targetX targetY (marchState targetX targetY j) =
        marchState targetX targetY (j + 1) from rfl, ih (j + 1), List.range'_succ]
    rfl

/-- The invariant of the general branch: the error term stays below
`target_x` and records exactly the accumulated sub-cell progress. -/
theorem marchState_inv (targetX targetY : ℕ) (h0 : 0 < targetY) (h1 : targetY < targetX) :
    ∀ i, (marchState targetX targetY i).1 < targetX ∧
      (marchState targetX targetY i).1 + (marchState targetX targetY i).2 * targetX =
        targetX / 2 + i * targetY := by
  intro i
  induction i with
  | zero => exact ⟨Nat.div_lt_self (by omega) one_lt_two, by simp [marchState]⟩
  | succ i ih =>
    obtain ⟨hlt, heq⟩ := ih
    have h2 : ((marchState targetX targetY i).2 + 1) * targetX =
        (marchState targetX targetY i).2 * targetX + targetX := by ring
    have h3 : (i + 1) * targetY = i * targetY + targetY := by ring
    show (marchStep targetX targetY (marchState targetX targetY i)).1 < targetX ∧
      (marchStep targetX targetY (marchState targetX targetY i)).1 +
        (marchStep targetX targetY (marchState targetX targetY i)).2 * targetX =
        targetX / 2 + (i + 1) * targetY
    by_cases hc : targetX ≤ (marchState targetX targetY i).1 + targetY <;>
      simp only [marchStep, hc, if_true, if_false] <;> exact ⟨by omega, by omega⟩

theorem marchState_zero (targetX targetY : ℕ) :
    marchState targetX targetY 0 = (targetX / 2, 0) := rfl

theorem marchY_le (targetX targetY : ℕ) (h : targetY ≤ targetX) (i : ℕ) :
    marchY targetX targetY i ≤ i := by
  unfold marchY
  split
  · exact Nat.zero_le i
  · split
    · exact le_refl i
    · rename_i hy0 hyx
      have h1 : 0 < targetY := Nat.pos_of_ne_zero hy0
      have h2 : targetY < targetX := lt_of_le_of_ne h hyx
      obtain ⟨hr, heq⟩ := marchState_inv targetX targetY h1 h2 i
      by_contra hcon
      push_neg at hcon
      set y := (marchState targetX targetY i).2
      have h5 : (i + 1) * targetX ≤ y * targetX :=
        Nat.mul_le_mul_right targetX (by omega)
      have h6 : i * targetY + i ≤ i * targetX := by
        calc i * targetY + i = i * (targetY + 1) := by ring
          _ ≤ i * targetX := Nat.mul_le_mul_left i (by omega)
      have h7 : (i + 1) * targetX = i * targetX + targetX := by ring
      omega

theorem marchY_mono (targetX targetY : ℕ) (i : ℕ) :
    marchY targetX targetY i ≤ marchY targetX targetY (i + 1) ∧
      marchY targetX targetY (i + 1) ≤ marchY targetX targetY i + 1 := by
  unfold marchY
  split
  · omega
  · split
    · omega
    · show (marchState targetX targetY i).2 ≤
          (marchStep targetX targetY (marchState targetX targetY i)).2 ∧
        (marchStep targetX targetY (marchState targetX targetY i)).2 ≤
          (marchState targetX targetY i).2 + 1
      by_cases hc : targetX ≤ (marchState targetX targetY i).1 + targetY <;>
        simp [marchStep, hc]

theorem marchRayPoints_eq (limitX targetX targetY : ℕ) :
    marchRayPoints limitX targetX targetY =
      (List.range (limitX + 1)).map fun i => (i, marchY targetX targetY i) := by
  by_cases h0 : targetY = 0
  · simp [marchRayPoints, marchY, h0]
  · by_cases h1 : targetY = targetX
    · subst h1
      simp [marchRayPoints, marchY, h0]
    · have key := marchGeneralGo_eq targetX targetY limitX 0
      rw [marchState_zero] at key
      simp only [marchRayPoints, marchY, h0, h1, if_false, key,
        List.range_succ_eq_map, List.map_cons, List.map_map,
        List.range'_eq_map_range]
      congr 1
      exact List.map_congr_left fun i _ => by
        simp [Function.comp, Nat.succ_eq_add_one, Nat.add_comm 1 i]

/-- C6: `march_ray(limit_x, target_x, target_y, f)` with
`target_y <= target_x` calls `f` exactly `limit_x + 1` times, at points
`(i, y_i)` for `i = 0, …, limit_x` in that order, with `y_0 = 0`, `y`
non-decreasing, increasing by at most `1` per step, and `y_i ≤ i`
throughout; the single statement covers the horizontal, diagonal and
general (error-accumulating) branches. -/
theorem c6_march_ray_shape (limitX targetX targetY : ℕ) (h : targetY ≤ targetX) :
    marchRay limitX targetX targetY =
      some ((List.range (limitX + 1)).map fun i => (i, marchY targetX targetY i)) ∧
    marchY targetX targetY 0 = 0 ∧
    (∀ i, marchY targetX targetY i ≤ marchY targetX targetY (i + 1)) ∧
    (∀ i, marchY targetX targetY (i + 1) ≤ marchY targetX targetY i + 1) ∧
    (∀ i, marchY targetX targetY i ≤ i) := by
  refine ⟨?_, ?_, fun i => (marchY_mono targetX targetY i).1,
    fun i => (marchY_mono targetX targetY i).2, marchY_le targetX targetY h⟩
  · rw [marchRay, if_pos h, marchRayPoints_eq]
  · unfold marchY
    split
    · rfl
    · split
      · rfl
      · rfl

/-- Witness for `c6_march_ray_shape` at `limit_x = 5`, `target_x = 10`,
`target_y = 4`. -/
theorem c6_march_ray_shape_witness :
    marchRay 5 10 4 =
      some ((List.range (5 + 1)).map fun i => (i, marchY 10 4 i)) ∧
    marchY 10 4 0 = 0 ∧
    (∀ i, marchY 10 4 i ≤ marchY 10 4 (i + 1)) ∧
    (∀ i, marchY 10 4 (i + 1) ≤ marchY 10 4 i + 1) ∧
    (∀ i, marchY 10 4 i ≤ i) :=
  c6_march_ray_shape 5 10 4 (by decide)

/-! ## Characterization of the edge pass (`calc_edge`) -/

/-- The value computed at the `i`-th step out along an axis/diagonal ray
of unit direction `(dx, dy)`: step `0` is the origin's value, and step
`i + 1` is the update function applied at `(dx·(i+1), dy·(i+1))` to a
single influx of weight `1` in direction `(dx, dy)` carrying the step-`i`
value. -/
def rayValue {T : Type} (f : UpdateFn T) (dx dy : ℤ) (v0 : T) : ℕ → T
  | 0 => v0
  | i + 1 =>
    f (dx * ((i : ℤ) + 1)) (dy * ((i : ℤ) + 1))
      [⟨1, dx, dy, rayValue f dx dy v0 i⟩]

/-- The events produced by steps `k, …, k + n - 1` of `calc_edge` (step
indices are `0`-based: the step with index `i` writes the cell at ray
distance `i + 1`). -/
def edgeEventsFrom {T : Type} (f : UpdateFn T) (origin dx dy stride : ℤ) (v0 : T)
    (k n : ℕ) : List (Event T) :=
  (List.range' k n).map fun (i : ℕ) =>
    ⟨origin + stride * ((i : ℤ) + 1), dx * ((i : ℤ) + 1), dy * ((i : ℤ) + 1),
      [⟨1, dx, dy, rayValue f dx dy v0 i⟩], rayValue f dx dy v0 (i + 1)⟩

/-- The full trace of one `calc_edge` call whose starting grid holds
`v0` at the origin. -/
def edgeEvents {T : Type} (f : UpdateFn T) (radius origin dx dy stride : ℤ)
    (v0 : T) : List (Event T) :=
  edgeEventsFrom f origin dx dy stride v0 0 radius.toNat

theorem calcEdgeGo_eq {T : Type} (f : UpdateFn T) (origin dx dy stride : ℤ) (v0 : T) :
    ∀ (n k : ℕ) (g : ℤ → T),
      g (origin + stride * (k : ℤ)) = rayValue f dx dy v0 k →
      calcEdgeGo f dx dy stride n (dx * (k : ℤ)) (dy * (k : ℤ))
          (origin + stride * (k : ℤ)) g =
        (applyEvents g (edgeEventsFrom f origin dx dy stride v0 k n),
          edgeEventsFrom f origin dx dy stride v0 k n) := by
  intro n
  induction n with
  | zero => intro k g _; rfl
  | succ n ih =>
    intro k g hseed
    have e1 : dx * (k : ℤ) + dx = dx * ((k : ℤ) + 1) := by ring
    have e2 : dy * (k : ℤ) + dy = dy * ((k : ℤ) + 1) := by ring
    have e3 : origin + stride * (k : ℤ) + stride = origin + stride * ((k : ℤ) + 1) := by ring
    have e4 : ((k + 1 : ℕ) : ℤ) = (k : ℤ) + 1 := by push_cast; ring
    simp only [calcEdgeGo, e1, e2, e3, hseed]
    have hseed' :
        write g (origin + stride * ((k : ℤ) + 1))
            (f (dx * ((k : ℤ) + 1)) (dy * ((k : ℤ) + 1))
              [⟨1, dx, dy, rayValue f dx dy v0 k⟩])
            (origin + stride * ((k + 1 : ℕ) : ℤ)) = rayValue f dx dy v0 (k + 1) := by
      rw [e4, write_self]
      rfl
    have := ih (k + 1) _ hseed'
    rw [e4] at this
    rw [this]
    have e5 : edgeEventsFrom f origin dx dy stride v0 k (n + 1) =
        (⟨origin + stride * ((k : ℤ) + 1), dx * ((k : ℤ) + 1), dy * ((k : ℤ) + 1),
          [⟨1, dx, dy, rayValue f dx dy v0 k⟩], rayValue f dx dy v0 (k + 1)⟩ : Event T) ::
          edgeEventsFrom f origin dx dy stride v0 (k + 1) n := by
      unfold edgeEventsFrom
      rw [List.range'_succ]
      rfl
    rw [e5, applyEvents_cons]
    rfl

theorem calcEdge_eq {T : Type} (f : UpdateFn T) (radius origin dx dy stride : ℤ)
    (g : ℤ → T) :
    calcEdge f radius origin dx dy stride g =
      (applyEvents g (edgeEvents f radius origin dx dy stride (g origin)),
        edgeEvents f radius origin dx dy stride (g origin)) := by
  have h0 : g (origin + stride * ((0 : ℕ) : ℤ)) = rayValue f dx dy (g origin) 0 := by
    simp [rayValue]
  have := calcEdgeGo_eq f origin dx dy stride (g origin) radius.toNat 0 g h0
  simp only [Nat.cast_zero, mul_zero, add_zero] at this
  exact this

theorem edgeEventsFrom_mem {T : Type} (f : UpdateFn T) (origin dx dy stride : ℤ)
    (v0 : T) (k n : ℕ) (e : Event T)
    (he : e ∈ edgeEventsFrom f origin dx dy stride v0 k n) :
    ∃ i : ℕ, k ≤ i ∧ i < k + n ∧
      e = ⟨origin + stride * ((i : ℤ) + 1), dx * ((i : ℤ) + 1), dy * ((i : ℤ) + 1),
        [⟨1, dx, dy, rayValue f dx dy v0 i⟩], rayValue f dx dy v0 (i + 1)⟩ := by
  unfold edgeEventsFrom at he
  obtain ⟨i, hi, rfl⟩ := List.mem_map.mp he
  rw [List.mem_range'_1] at hi
  exact ⟨i, hi.1, hi.2, rfl⟩

/-! ## Characterization of the interior pass (`calc_interior`) -/

/-- Number of interior cells in octant columns `u = 2, …, j + 1`
(`tri j = 1 + 2 + … + j`): the LUT index at which column `u = j + 2`
starts, and also the length of `j` leading columns of the traversal. -/
def tri : ℕ → ℕ
  | 0 => 0
  | j + 1 => tri j + (j + 1)

theorem tri_mono {a b : ℕ} (h : a ≤ b) : tri a ≤ tri b := by
  induction b with
  | zero => simp_all
  | succ b ih =>
    rcases Nat.lt_or_ge a (b + 1) with hb | hb
    · exact le_trans (ih (by omega)) (by simp [tri])
    · have : a = b + 1 := by omega
      subst this
      exact le_refl _

/-- The flat index of octant-local cell `(u, v)` reached from `origin`
by the two strides. -/
def cellIndex (origin us vs u v : ℤ) : ℤ :=
  origin + u * us + v * vs

/-- The world coordinates of octant-local cell `(u, v)` under the basis
matrix `(m_xu, m_xv; m_yu, m_yv)`. -/
def cellWorld (mxu mxv myu myv u v : ℤ) : ℤ × ℤ :=
  (mxu * u + mxv * v, myu * u + myv * v)

/-- The event of the single `update_fn` call `calc_interior` makes for
octant-local cell `(u, v) = (j + 2, i + 1)`, given the grid `gb` as it
stands at the moment of the call: the cell's flat index and world
coordinates, the `stay`-direction influx (pointing at `(u-1, v)`)
carrying LUT weight `tri j + i` and the value stored at the jump cell
`(u-1, v-1)`, and the `jump`-direction influx (pointing at `(u-1, v-1)`)
carrying the complementary weight and the value stored at the stay cell
`(u-1, v)`. -/
def interiorCallEvent {T : Type} (f : UpdateFn T) (mxu mxv myu myv us vs origin : ℤ)
    (lut : List ℚ) (j i : ℕ) (gb : ℤ → T) : Event T :=
  let u : ℤ := (j : ℤ) + 2
  let v : ℤ := (i : ℤ) + 1
  let w := lut.getD (tri j + i) 0
  let infl : List (Influx T) :=
    [⟨w, -mxu, -myu, gb (cellIndex origin us vs (u - 1) (v - 1))⟩,
     ⟨1 - w, -(mxu + mxv), -(myu + myv), gb (cellIndex origin us vs (u - 1) v)⟩]
  ⟨cellIndex origin us vs u v, (cellWorld mxu mxv myu myv u v).1,
    (cellWorld mxu mxv myu myv u v).2, infl,
    f (cellWorld mxu mxv myu myv u v).1 (cellWorld mxu mxv myu myv u v).2 infl⟩

theorem interiorRowGo_lutIx {T : Type} (f : UpdateFn T) (mxu mxv myu myv vs : ℤ)
    (lut : List ℚ) (u : ℤ) :
    ∀ (n : ℕ) (v c p : ℤ) (l : ℕ) (g : ℤ → T),
      (interiorRowGo f mxu mxv myu myv vs lut u n v c p p l g).2.2 = l + n := by
  intro n
  induction n with
  | zero => intro v c p l g; rfl
  | succ n ih =>
    intro v c p l g
    simp only [interiorRowGo]
    rw [ih]
    omega

theorem interiorRowGo_grid {T : Type} (f : UpdateFn T) (mxu mxv myu myv vs : ℤ)
    (lut : List ℚ) (u : ℤ) :
    ∀ (n : ℕ) (v c p : ℤ) (l : ℕ) (g : ℤ → T),
      (interiorRowGo f mxu mxv myu myv vs lut u n v c p p l g).1 =
        applyEvents g (interiorRowGo f mxu mxv myu myv vs lut u n v c p p l g).2.1 := by
  intro n
  induction n with
  | zero => intro v c p l g; rfl
  | succ n ih =>
    intro v c p l g
    simp only [interiorRowGo, applyEvents_cons]
    exact ih ..

theorem interiorRowGo_shape {T : Type} (f : UpdateFn T) (mxu mxv myu myv vs : ℤ)
    (lut : List ℚ) (u : ℤ) :
    ∀ (n : ℕ) (v c p : ℤ) (l : ℕ) (g : ℤ → T),
      (interiorRowGo f mxu mxv myu myv vs lut u n v c p p l g).2.1.map
          (fun e => (e.pos, e.x, e.y)) =
        (List.range n).map fun (t : ℕ) =>
          (c + ((t : ℤ) + 1) * vs, mxu * u + mxv * (v + t), myu * u + myv * (v + t)) := by
  intro n
  induction n with
  | zero => intro v c p l g; rfl
  | succ n ih =>
    intro v c p l g
    simp only [interiorRowGo, List.map_cons]
    rw [ih, List.range_succ_eq_map, List.map_cons, List.map_map]
    congr 1
    · simp only [Nat.cast_zero, Prod.mk.injEq]
      refine ⟨by ring, by ring, by ring⟩
    · refine List.map_congr_left fun t _ => ?_
      simp only [Function.comp_apply, Nat.succ_eq_add_one, Prod.mk.injEq]
      push_cast
      refine ⟨by ring, by ring, by ring⟩

theorem interiorRowGo_values {T : Type} (f : UpdateFn T) (mxu mxv myu myv vs : ℤ)
    (lut : List ℚ) (u : ℤ) :
    ∀ (n : ℕ) (v c p p' : ℤ) (l : ℕ) (g : ℤ → T),
      ∀ e ∈ (interiorRowGo f mxu mxv myu myv vs lut u n v c p p' l g).2.1,
        e.value = f e.x e.y e.influxes := by
  intro n
  induction n with
  | zero => intro v c p p' l g e he; cases he
  | succ n ih =>
    intro v c p p' l g e he
    simp only [interiorRowGo] at he
    rcases List.mem_cons.mp he with rfl | he'
    · rfl
    · exact ih _ _ _ _ _ _ e he'

theorem interiorRowGo_tws {T : Type} (f : UpdateFn T) (mxu mxv myu myv vs : ℤ)
    (lut : List ℚ) (u : ℤ) :
    ∀ (n : ℕ) (v c p : ℤ) (l : ℕ) (g : ℤ → T),
      ∀ q ∈ traceWithStates g (interiorRowGo f mxu mxv myu myv vs lut u n v c p p l g).2.1,
        ∃ t : ℕ, t < n ∧
          q.2.pos = c + ((t : ℤ) + 1) * vs ∧
          q.2.x = mxu * u + mxv * (v + t) ∧
          q.2.y = myu * u + myv * (v + t) ∧
          q.2.influxes =
            [⟨lut.getD (l + t) 0, -mxu, -myu, q.1 (p + (t : ℤ) * vs)⟩,
             ⟨1 - lut.getD (l + t) 0, -(mxu + mxv), -(myu + myv),
               q.1 (p + ((t : ℤ) + 1) * vs)⟩] := by
  intro n
  induction n with
  | zero => intro v c p l g q hq; cases hq
  | succ n ih =>
    intro v c p l g q hq
    simp only [interiorRowGo, traceWithStates] at hq
    rcases List.mem_cons.mp hq with rfl | hq'
    · refine ⟨0, by omega, by push_cast; ring, by push_cast; ring, by push_cast; ring, ?_⟩
      norm_num
    · obtain ⟨t, ht, hpos, hx, hy, hinfl⟩ := ih _ _ _ _ _ q hq'
      refine ⟨t + 1, by omega, ?_, ?_, ?_, ?_⟩
      · rw [hpos]; push_cast; ring
      · rw [hx]; push_cast; ring_nf
      · rw [hy]; push_cast; ring_nf
      · rw [hinfl, show l + 1 + t = l + (t + 1) from by omega,
          show p + vs + (t : ℤ) * vs = p + ((t : ℤ) + 1) * vs from by ring,
          show p + vs + ((t : ℤ) + 1) * vs = p + ((t : ℤ) + 1 + 1) * vs from by ring]
        push_cast
        rfl

/-! ## Column-level characterization of `calc_interior` -/

/-- The octant-local coordinates `(u, v)` of the interior cells of
columns `j, …, j + n - 1` (column index `a` holds cells
`u = a + 2`, `v = 1, …, a + 1`), in traversal order. -/
def uvCols (j n : ℕ) : List (ℤ × ℤ) :=
  (List.range' j n).flatMap fun (a : ℕ) =>
    (List.range (a + 1)).map fun (i : ℕ) => ((a : ℤ) + 2, (i : ℤ) + 1)

/-- All interior cells `(u, v)` of one octant of the given radius, in
the traversal order of `calc_interior` (`u` ascending from `2` to
`radius`, `v` ascending from `1` to `u - 1`), which is also the emission
order of `calc_flux_lut`. -/
def uvList (radius : ℤ) : List (ℤ × ℤ) :=
  uvCols 0 (radius - 1).toNat

theorem interiorColsGo_grid {T : Type} (f : UpdateFn T) (mxu mxv myu myv us vs : ℤ)
    (lut : List ℚ) :
    ∀ (n : ℕ) (u colPtr : ℤ) (l : ℕ) (g : ℤ → T),
      (interiorColsGo f mxu mxv myu myv us vs lut n u colPtr l g).1 =
        applyEvents g (interiorColsGo f mxu mxv myu myv us vs lut n u colPtr l g).2.1 := by
  intro n
  induction n with
  | zero => intro u colPtr l g; rfl
  | succ n ih =>
    intro u colPtr l g
    simp only [interiorColsGo]
    rw [applyEvents_append, ← interiorRowGo_grid, ih]

theorem interiorColsGo_values {T : Type} (f : UpdateFn T) (mxu mxv myu myv us vs : ℤ)
    (lut : List ℚ) :
    ∀ (n : ℕ) (u colPtr : ℤ) (l : ℕ) (g : ℤ → T),
      ∀ e ∈ (interiorColsGo f mxu mxv myu myv us vs lut n u colPtr l g).2.1,
        e.value = f e.x e.y e.influxes := by
  intro n
  induction n with
  | zero => intro u colPtr l g e he; cases he
  | succ n ih =>
    intro u colPtr l g e he
    simp only [interiorColsGo] at he
    rcases List.mem_append.mp he with he' | he'
    · exact interiorRowGo_values f mxu mxv myu myv vs lut u _ _ _ _ _ _ _ e he'
    · exact ih _ _ _ _ e he'

theorem interiorColsGo_shape {T : Type} (f : UpdateFn T) (mxu mxv myu myv us vs origin : ℤ)
    (lut : List ℚ) :
    ∀ (n j : ℕ) (l : ℕ) (g : ℤ → T),
      (interiorColsGo f mxu mxv myu myv us vs lut n (2 + (j : ℤ))
          (origin + (1 + (j : ℤ)) * us) l g).2.1.map (fun e => (e.pos, e.x, e.y)) =
        (uvCols j n).map fun p =>
          (cellIndex origin us vs p.1 p.2,
           (cellWorld mxu mxv myu myv p.1 p.2).1,
           (cellWorld mxu mxv myu myv p.1 p.2).2) := by
  intro n
  induction n with
  | zero => intro j l g; rfl
  | succ n ih =>
    intro j l g
    simp only [interiorColsGo, List.map_append]
    have hcnt : ((2 + (j : ℤ)) - 1).toNat = j + 1 := by omega
    have hrow := interiorRowGo_shape f mxu mxv myu myv vs lut (2 + (j : ℤ))
      (j + 1) 1 (origin + (1 + (j : ℤ)) * us + us) (origin + (1 + (j : ℤ)) * us) l g
    rw [hcnt, hrow]
    have hlut := interiorRowGo_lutIx f mxu mxv myu myv vs lut (2 + (j : ℤ))
      (j + 1) 1 (origin + (1 + (j : ℤ)) * us + us) (origin + (1 + (j : ℤ)) * us) l g
    rw [hlut]
    have hc2 : origin + (1 + (j : ℤ)) * us + us = origin + (1 + ((j : ℕ) + 1 : ℕ)) * us := by
      push_cast; ring
    have hc3 : (2 + (j : ℤ)) + 1 = 2 + ((j : ℕ) + 1 : ℕ) := by push_cast; ring
    rw [hc2, hc3, ih (j + 1) (l + (j + 1))]
    have huv : uvCols j (n + 1) =
        ((List.range (j + 1)).map fun (i : ℕ) => ((j : ℤ) + 2, (i : ℤ) + 1)) ++
          uvCols (j + 1) n := by
      unfold uvCols
      rw [List.range'_succ, List.flatMap_cons]
    rw [huv, List.map_append]
    congr 1
    rw [List.map_map]
    refine List.map_congr_left fun i _ => ?_
    simp only [Function.comp_apply, cellIndex, cellWorld, Prod.mk.injEq]
    refine ⟨by push_cast; ring, by push_cast; ring, by push_cast; ring⟩

theorem interiorColsGo_tws {T : Type} (f : UpdateFn T) (mxu mxv myu myv us vs origin : ℤ)
    (lut : List ℚ) :
    ∀ (n j : ℕ) (l : ℕ) (g : ℤ → T),
      ∀ q ∈ traceWithStates g (interiorColsGo f mxu mxv myu myv us vs lut n (2 + (j : ℤ))
          (origin + (1 + (j : ℤ)) * us) l g).2.1,
        ∃ (a i : ℕ), j ≤ a ∧ a < j + n ∧ i ≤ a ∧
          q.2.pos = cellIndex origin us vs ((a : ℤ) + 2) ((i : ℤ) + 1) ∧
          q.2.x = (cellWorld mxu mxv myu myv ((a : ℤ) + 2) ((i : ℤ) + 1)).1 ∧
          q.2.y = (cellWorld mxu mxv myu myv ((a : ℤ) + 2) ((i : ℤ) + 1)).2 ∧
          q.2.influxes =
            [⟨lut.getD (l + (tri a - tri j) + i) 0, -mxu, -myu,
                q.1 (cellIndex origin us vs ((a : ℤ) + 1) (i : ℤ))⟩,
             ⟨1 - lut.getD (l + (tri a - tri j) + i) 0, -(mxu + mxv), -(myu + myv),
                q.1 (cellIndex origin us vs ((a : ℤ) + 1) ((i : ℤ) + 1))⟩] := by
  intro n
  induction n with
  | zero => intro j l g q hq; cases hq
  | succ n ih =>
    intro j l g q hq
    simp only [interiorColsGo] at hq
    have hcnt : ((2 + (j : ℤ)) - 1).toNat = j + 1 := by omega
    rw [hcnt] at hq
    rw [traceWithStates_append, ← interiorRowGo_grid] at hq
    rcases List.mem_append.mp hq with hq' | hq'
    · obtain ⟨t, ht, hpos, hx, hy, hinfl⟩ := interiorRowGo_tws f mxu mxv myu myv vs lut
        (2 + (j : ℤ)) (j + 1) 1 (origin + (1 + (j : ℤ)) * us + us)
        (origin + (1 + (j : ℤ)) * us) l g q hq'
      refine ⟨j, t, le_refl j, by omega, by omega, ?_, ?_, ?_, ?_⟩
      · rw [hpos]; simp only [cellIndex]; push_cast; ring
      · rw [hx]; simp only [cellWorld]; push_cast; ring
      · rw [hy]; simp only [cellWorld]; push_cast; ring
      · rw [hinfl, Nat.sub_self, Nat.add_zero,
          show origin + (1 + (j : ℤ)) * us + (t : ℤ) * vs =
            cellIndex origin us vs ((j : ℤ) + 1) (t : ℤ) from by
              simp only [cellIndex]; ring,
          show origin + (1 + (j : ℤ)) * us + ((t : ℤ) + 1) * vs =
            cellIndex origin us vs ((j : ℤ) + 1) ((t : ℤ) + 1) from by
              simp only [cellIndex]; ring]
    · have hlut := interiorRowGo_lutIx f mxu mxv myu myv vs lut (2 + (j : ℤ))
        (j + 1) 1 (origin + (1 + (j : ℤ)) * us + us) (origin + (1 + (j : ℤ)) * us) l g
      rw [hlut] at hq'
      have hc2 : origin + (1 + (j : ℤ)) * us + us = origin + (1 + ((j : ℕ) + 1 : ℕ)) * us := by
        push_cast; ring
      have hc3 : (2 + (j : ℤ)) + 1 = 2 + ((j : ℕ) + 1 : ℕ) := by push_cast; ring
      rw [hc2, hc3] at hq'
      obtain ⟨a, i, ha1, ha2, hi, hres⟩ := ih (j + 1) (l + (j + 1)) _ q hq'
      refine ⟨a, i, by omega, by omega, hi, ?_⟩
      have htri : l + (j + 1) + (tri a - tri (j + 1)) + i = l + (tri a - tri j) + i := by
        have h1 : tri (j + 1) = tri j + (j + 1) := rfl
        have h2 : tri (j + 1) ≤ tri a := tri_mono ha1
        omega
      rw [htri] at hres
      exact hres

/-! ## Wrappers for `calc_interior` as a whole -/

theorem calcInterior_grid {T : Type} (f : UpdateFn T) (mxu mxv myu myv us vs radius origin : ℤ)
    (lut : List ℚ) (g : ℤ → T) :
    (calcInterior f mxu mxv myu myv us vs radius origin lut g).1 =
      applyEvents g (calcInterior f mxu mxv myu myv us vs radius origin lut g).2.1 := by
  unfold calcInterior
  exact interiorColsGo_grid ..

theorem calcInterior_values {T : Type} (f : UpdateFn T) (mxu mxv myu myv us vs radius origin : ℤ)
    (lut : List ℚ) (g : ℤ → T) :
    ∀ e ∈ (calcInterior f mxu mxv myu myv us vs radius origin lut g).2.1,
      e.value = f e.x e.y e.influxes := by
  unfold calcInterior
  exact fun e he => interiorColsGo_values f mxu mxv myu myv us vs lut _ _ _ _ _ e he

/-- The `(flat index, world x, world y)` triples of one octant pass, in
traversal order; they do not depend on the grid nor on the LUT. -/
def interiorTriples (mxu mxv myu myv us vs radius origin : ℤ) : List (ℤ × ℤ × ℤ) :=
  (uvList radius).map fun p =>
    (cellIndex origin us vs p.1 p.2,
     (cellWorld mxu mxv myu myv p.1 p.2).1,
     (cellWorld mxu mxv myu myv p.1 p.2).2)

theorem calcInterior_triples {T : Type} (f : UpdateFn T) (mxu mxv myu myv us vs radius origin : ℤ)
    (lut : List ℚ) (g : ℤ → T) :
    (calcInterior f mxu mxv myu myv us vs radius origin lut g).2.1.map
        (fun e => (e.pos, e.x, e.y)) =
      interiorTriples mxu mxv myu myv us vs radius origin := by
  have h := interiorColsGo_shape f mxu mxv myu myv us vs origin lut (radius - 1).toNat 0 0 g
  simp only [Nat.cast_zero, add_zero, one_mul] at h
  exact h

theorem calcInterior_tws {T : Type} (f : UpdateFn T) (mxu mxv myu myv us vs radius origin : ℤ)
    (lut : List ℚ) (g : ℤ → T) :
    ∀ q ∈ traceWithStates g (calcInterior f mxu mxv myu myv us vs radius origin lut g).2.1,
      ∃ (a i : ℕ), a < (radius - 1).toNat ∧ i ≤ a ∧
        q.2.pos = cellIndex origin us vs ((a : ℤ) + 2) ((i : ℤ) + 1) ∧
        q.2.x = (cellWorld mxu mxv myu myv ((a : ℤ) + 2) ((i : ℤ) + 1)).1 ∧
        q.2.y = (cellWorld mxu mxv myu myv ((a : ℤ) + 2) ((i : ℤ) + 1)).2 ∧
        q.2.influxes =
          [⟨lut.getD (tri a + i) 0, -mxu, -myu,
              q.1 (cellIndex origin us vs ((a : ℤ) + 1) (i : ℤ))⟩,
           ⟨1 - lut.getD (tri a + i) 0, -(mxu + mxv), -(myu + myv),
              q.1 (cellIndex origin us vs ((a : ℤ) + 1) ((i : ℤ) + 1))⟩] := by
  intro q hq
  unfold calcInterior at hq
  have h := interiorColsGo_tws f mxu mxv myu myv us vs origin lut (radius - 1).toNat 0 0 g q
  simp only [Nat.cast_zero, add_zero, one_mul, zero_add, Nat.sub_zero] at h
  obtain ⟨a, i, _, ha2, hi, hres⟩ := h hq
  have htri : tri a - tri 0 = tri a := by simp [tri]
  rw [htri] at hres
  exact ⟨a, i, ha2, hi, hres⟩

/-! ## Edge segments and the edge fold -/

/-- The `(flat index, world x, world y)` triples of one `calc_edge`
pass; they do not depend on the grid. -/
def edgeTriples (radius origin dx dy stride : ℤ) : List (ℤ × ℤ × ℤ) :=
  (List.range radius.toNat).map fun (i : ℕ) =>
    (origin + stride * ((i : ℤ) + 1), dx * ((i : ℤ) + 1), dy * ((i : ℤ) + 1))

theorem calcEdge_grid {T : Type} (f : UpdateFn T) (radius origin dx dy stride : ℤ)
    (g : ℤ → T) :
    (calcEdge f radius origin dx dy stride g).1 =
      applyEvents g (calcEdge f radius origin dx dy stride g).2 := by
  rw [calcEdge_eq]

theorem calcEdge_trace {T : Type} (f : UpdateFn T) (radius origin dx dy stride : ℤ)
    (g : ℤ → T) :
    (calcEdge f radius origin dx dy stride g).2 =
      edgeEvents f radius origin dx dy stride (g origin) := by
  rw [calcEdge_eq]

theorem edgeEvents_triples {T : Type} (f : UpdateFn T) (radius origin dx dy stride : ℤ)
    (v0 : T) :
    (edgeEvents f radius origin dx dy stride v0).map (fun e => (e.pos, e.x, e.y)) =
      edgeTriples radius origin dx dy stride := by
  unfold edgeEvents edgeEventsFrom edgeTriples
  rw [List.map_map, ← List.range_eq_range']
  rfl

theorem edgeEvents_values {T : Type} (f : UpdateFn T) (radius origin dx dy stride : ℤ)
    (v0 : T) :
    ∀ e ∈ edgeEvents f radius origin dx dy stride v0,
      e.value = f e.x e.y e.influxes := by
  intro e he
  obtain ⟨i, _, _, rfl⟩ := edgeEventsFrom_mem f origin dx dy stride v0 0 radius.toNat e he
  rfl

theorem edgeEvents_pos_ne_origin {T : Type} (f : UpdateFn T) (radius origin dx dy stride : ℤ)
    (v0 : T) (hs : stride ≠ 0) :
    ∀ e ∈ edgeEvents f radius origin dx dy stride v0, e.pos ≠ origin := by
  intro e he
  obtain ⟨i, _, _, rfl⟩ := edgeEventsFrom_mem f origin dx dy stride v0 0 radius.toNat e he
  simp only [ne_eq, add_right_eq_self]
  intro hc
  rcases mul_eq_zero.mp hc with h | h
  · exact hs h
  · omega

theorem edgeFold_grid {T : Type} (f : UpdateFn T) (radius origin : ℤ) :
    ∀ (ds : List (ℤ × ℤ × ℤ)) (g : ℤ → T),
      (edgeFold f radius origin ds g).1 =
        applyEvents g (edgeFold f radius origin ds g).2 := by
  intro ds
  induction ds with
  | nil => intro g; rfl
  | cons d ds ih =>
    intro g
    simp only [edgeFold]
    rw [applyEvents_append, ← calcEdge_grid, ih]

theorem edgeFold_values {T : Type} (f : UpdateFn T) (radius origin : ℤ) :
    ∀ (ds : List (ℤ × ℤ × ℤ)) (g : ℤ → T),
      ∀ e ∈ (edgeFold f radius origin ds g).2, e.value = f e.x e.y e.influxes := by
  intro ds
  induction ds with
  | nil => intro g e he; cases he
  | cons d ds ih =>
    intro g e he
    simp only [edgeFold] at he
    rcases List.mem_append.mp he with he' | he'
    · rw [calcEdge_trace] at he'
      exact edgeEvents_values f radius origin d.1 d.2.1 d.2.2 _ e he'
    · exact ih _ e he'

theorem edgeFold_triples {T : Type} (f : UpdateFn T) (radius origin : ℤ) :
    ∀ (ds : List (ℤ × ℤ × ℤ)) (g : ℤ → T),
      (edgeFold f radius origin ds g).2.map (fun e => (e.pos, e.x, e.y)) =
        ds.flatMap fun d => edgeTriples radius origin d.1 d.2.1 d.2.2 := by
  intro ds
  induction ds with
  | nil => intro g; rfl
  | cons d ds ih =>
    intro g
    simp only [edgeFold, List.map_append, List.flatMap_cons]
    rw [calcEdge_trace, edgeEvents_triples, ih]

/-- The origin cell is untouched by the whole edge fold as long as all
strides are nonzero, and consequently each of the eight rays is seeded
with the same origin value. -/
theorem edgeFold_trace {T : Type} (f : UpdateFn T) (radius origin : ℤ) :
    ∀ (ds : List (ℤ × ℤ × ℤ)) (g : ℤ → T), (∀ d ∈ ds, d.2.2 ≠ 0) →
      (edgeFold f radius origin ds g).2 =
        (ds.flatMap fun d => edgeEvents f radius origin d.1 d.2.1 d.2.2 (g origin)) ∧
      (edgeFold f radius origin ds g).1 origin = g origin := by
  intro ds
  induction ds with
  | nil => intro g _; exact ⟨rfl, rfl⟩
  | cons d ds ih =>
    intro g hds
    have hs : d.2.2 ≠ 0 := hds d (List.mem_cons_self d ds)
    have hpres : (calcEdge f radius origin d.1 d.2.1 d.2.2 g).1 origin = g origin := by
      rw [calcEdge_grid, applyEvents_untouched]
      rw [calcEdge_trace]
      exact edgeEvents_pos_ne_origin f radius origin d.1 d.2.1 d.2.2 _ hs
    obtain ⟨ihtr, ihpres⟩ := ih (calcEdge f radius origin d.1 d.2.1 d.2.2 g).1
      fun d' hd' => hds d' (List.mem_cons_of_mem d hd')
    constructor
    · simp only [edgeFold, List.flatMap_cons]
      rw [calcEdge_trace, ihtr, hpres]
    · simp only [edgeFold]
      rw [ihpres, hpres]

/-! ## Exact correspondence between interior traces and interior cells -/

theorem forall₂_exists_right {α β : Type _} {R : α → β → Prop} {l₁ : List α}
    {l₂ : List β} (h : List.Forall₂ R l₁ l₂) (b : β) (hb : b ∈ l₂) :
    ∃ a ∈ l₁, R a b := by
  induction h with
  | nil => cases hb
  | cons hR hF ih =>
    rcases List.mem_cons.mp hb with rfl | hb'
    · exact ⟨_, List.mem_cons_self .., hR⟩
    · obtain ⟨a, ha, hab⟩ := ih hb'
      exact ⟨a, List.mem_cons_of_mem _ ha, hab⟩

theorem interiorRowGo_forall₂ {T : Type} (f : UpdateFn T) (mxu mxv myu myv vs : ℤ)
    (lut : List ℚ) (u : ℤ) :
    ∀ (n : ℕ) (v c p : ℤ) (l : ℕ) (g : ℤ → T),
      List.Forall₂ (fun (q : (ℤ → T) × Event T) (t : ℕ) =>
          q.2.pos = c + ((t : ℤ) + 1) * vs ∧
          q.2.x = mxu * u + mxv * (v + t) ∧
          q.2.y = myu * u + myv * (v + t) ∧
          q.2.influxes =
            [⟨lut.getD (l + t) 0, -mxu, -myu, q.1 (p + (t : ℤ) * vs)⟩,
             ⟨1 - lut.getD (l + t) 0, -(mxu + mxv), -(myu + myv),
               q.1 (p + ((t : ℤ) + 1) * vs)⟩])
        (traceWithStates g (interiorRowGo f mxu mxv myu myv vs lut u n v c p p l g).2.1)
        (List.range n) := by
  intro n
  induction n with
  | zero => intro v c p l g; exact List.Forall₂.nil
  | succ n ih =>
    intro v c p l g
    simp only [interiorRowGo, traceWithStates]
    rw [List.range_succ_eq_map]
    refine List.forall₂_cons.mpr ⟨?_, ?_⟩
    · refine ⟨by push_cast; ring, by push_cast; ring, by push_cast; ring, by norm_num⟩
    · rw [List.forall₂_map_right_iff]
      refine (ih (v + 1) (c + vs) (p + vs) (l + 1) _).imp fun q t ⟨hpos, hx, hy, hinfl⟩ => ?_
      refine ⟨?_, ?_, ?_, ?_⟩
      · rw [hpos]; push_cast; ring
      · rw [hx]; push_cast; ring_nf
      · rw [hy]; push_cast; ring_nf
      · rw [hinfl, show l + 1 + t = l + (t + 1) from by omega,
          show p + vs + (t : ℤ) * vs = p + ((t : ℤ) + 1) * vs from by ring,
          show p + vs + ((t : ℤ) + 1) * vs = p + ((t : ℤ) + 1 + 1) * vs from by ring]
        push_cast
        rfl

/-- The `(column, row)` index pairs of the interior cells of octant
columns `j, …, j + n - 1`, in traversal order (cell `(a, i)` has
octant-local coordinates `(u, v) = (a + 2, i + 1)`). -/
def uvIdxCols (j n : ℕ) : List (ℕ × ℕ) :=
  (List.range' j n).flatMap fun (a : ℕ) =>
    (List.range (a + 1)).map fun (i : ℕ) => (a, i)

theorem mem_uvIdxCols (j n a i : ℕ) (ha1 : j ≤ a) (ha2 : a < j + n) (hi : i ≤ a) :
    (a, i) ∈ uvIdxCols j n := by
  unfold uvIdxCols
  rw [List.mem_flatMap]
  exact ⟨a, List.mem_range'_1.mpr ⟨ha1, ha2⟩,
    List.mem_map.mpr ⟨i, List.mem_range.mpr (by omega), rfl⟩⟩

theorem interiorColsGo_forall₂ {T : Type} (f : UpdateFn T) (mxu mxv myu myv us vs origin : ℤ)
    (lut : List ℚ) :
    ∀ (n j : ℕ) (l : ℕ) (g : ℤ → T),
      List.Forall₂ (fun (q : (ℤ → T) × Event T) (ai : ℕ × ℕ) =>
          j ≤ ai.1 ∧
          q.2.pos = cellIndex origin us vs ((ai.1 : ℤ) + 2) ((ai.2 : ℤ) + 1) ∧
          q.2.x = (cellWorld mxu mxv myu myv ((ai.1 : ℤ) + 2) ((ai.2 : ℤ) + 1)).1 ∧
          q.2.y = (cellWorld mxu mxv myu myv ((ai.1 : ℤ) + 2) ((ai.2 : ℤ) + 1)).2 ∧
          q.2.influxes =
            [⟨lut.getD (l + (tri ai.1 - tri j) + ai.2) 0, -mxu, -myu,
                q.1 (cellIndex origin us vs ((ai.1 : ℤ) + 1) (ai.2 : ℤ))⟩,
             ⟨1 - lut.getD (l + (tri ai.1 - tri j) + ai.2) 0, -(mxu + mxv), -(myu + myv),
                q.1 (cellIndex origin us vs ((ai.1 : ℤ) + 1) ((ai.2 : ℤ) + 1))⟩])
        (traceWithStates g (interiorColsGo f mxu mxv myu myv us vs lut n (2 + (j : ℤ))
          (origin + (1 + (j : ℤ)) * us) l g).2.1)
        (uvIdxCols j n) := by
  intro n
  induction n with
  | zero => intro j l g; exact List.Forall₂.nil
  | succ n ih =>
    intro j l g
    simp only [interiorColsGo]
    have hcnt : ((2 + (j : ℤ)) - 1).toNat = j + 1 := by omega
    rw [hcnt, traceWithStates_append, ← interiorRowGo_grid]
    have huv : uvIdxCols j (n + 1) =
        ((List.range (j + 1)).map fun (i : ℕ) => (j, i)) ++ uvIdxCols (j + 1) n := by
      unfold uvIdxCols
      rw [List.range'_succ, List.flatMap_cons]
    rw [huv]
    refine List.rel_append ?_ ?_
    · rw [List.forall₂_map_right_iff]
      refine (interiorRowGo_forall₂ f mxu mxv myu myv vs lut (2 + (j : ℤ)) (j + 1) 1
        (origin + (1 + (j : ℤ)) * us + us) (origin + (1 + (j : ℤ)) * us) l g).imp
        fun q t ⟨hpos, hx, hy, hinfl⟩ => ?_
      refine ⟨le_refl j, ?_, ?_, ?_, ?_⟩
      · rw [hpos]; simp only [cellIndex]; push_cast; ring
      · rw [hx]; simp only [cellWorld]; push_cast; ring_nf
      · rw [hy]; simp only [cellWorld]; push_cast; ring_nf
      · rw [hinfl, Nat.sub_self, Nat.add_zero,
          show origin + (1 + (j : ℤ)) * us + (t : ℤ) * vs =
            cellIndex origin us vs ((j : ℤ) + 1) (t : ℤ) from by
              simp only [cellIndex]; ring,
          show origin + (1 + (j : ℤ)) * us + ((t : ℤ) + 1) * vs =
            cellIndex origin us vs ((j : ℤ) + 1) ((t : ℤ) + 1) from by
              simp only [cellIndex]; ring]
    · have hlut := interiorRowGo_lutIx f mxu mxv myu myv vs lut (2 + (j : ℤ))
        (j + 1) 1 (origin + (1 + (j : ℤ)) * us + us) (origin + (1 + (j : ℤ)) * us) l g
      rw [hlut]
      have hc2 : origin + (1 + (j : ℤ)) * us + us = origin + (1 + ((j : ℕ) + 1 : ℕ)) * us := by
        push_cast; ring
      have hc3 : (2 + (j : ℤ)) + 1 = 2 + ((j : ℕ) + 1 : ℕ) := by push_cast; ring
      rw [hc2, hc3]
      refine (ih (j + 1) (l + (j + 1)) _).imp fun q ai ⟨hja, hpos, hx, hy, hinfl⟩ => ?_
      refine ⟨by omega, hpos, hx, hy, ?_⟩
      rw [hinfl]
      have htle := tri_mono hja
      have h1 : tri (j + 1) = tri j + (j + 1) := rfl
      rw [show l + (j + 1) + (tri ai.1 - tri (j + 1)) + ai.2 =
        l + (tri ai.1 - tri j) + ai.2 from by omega]

theorem calcInterior_forall₂ {T : Type} (f : UpdateFn T) (mxu mxv myu myv us vs radius origin : ℤ)
    (lut : List ℚ) (g : ℤ → T) :
    List.Forall₂ (fun (q : (ℤ → T) × Event T) (ai : ℕ × ℕ) =>
        q.2.pos = cellIndex origin us vs ((ai.1 : ℤ) + 2) ((ai.2 : ℤ) + 1) ∧
        q.2.x = (cellWorld mxu mxv myu myv ((ai.1 : ℤ) + 2) ((ai.2 : ℤ) + 1)).1 ∧
        q.2.y = (cellWorld mxu mxv myu myv ((ai.1 : ℤ) + 2) ((ai.2 : ℤ) + 1)).2 ∧
        q.2.influxes =
          [⟨lut.getD (tri ai.1 + ai.2) 0, -mxu, -myu,
              q.1 (cellIndex origin us vs ((ai.1 : ℤ) + 1) (ai.2 : ℤ))⟩,
           ⟨1 - lut.getD (tri ai.1 + ai.2) 0, -(mxu + mxv), -(myu + myv),
              q.1 (cellIndex origin us vs ((ai.1 : ℤ) + 1) ((ai.2 : ℤ) + 1))⟩])
      (traceWithStates g (calcInterior f mxu mxv myu myv us vs radius origin lut g).2.1)
      (uvIdxCols 0 (radius - 1).toNat) := by
  unfold calcInterior
  have h := interiorColsGo_forall₂ f mxu mxv myu myv us vs origin lut (radius - 1).toNat 0 0 g
  simp only [Nat.cast_zero, add_zero, one_mul, zero_add] at h
  refine h.imp fun q ai ⟨_, hpos, hx, hy, hinfl⟩ => ⟨hpos, hx, hy, ?_⟩
  rw [hinfl]
  rw [show tri ai.1 - tri 0 = tri ai.1 from by simp [tri]]

/-! ## The octant fold -/

theorem octantFold_grid {T : Type} (f : UpdateFn T) (radius origin : ℤ) (lut : List ℚ) :
    ∀ (ps : List (ℤ × ℤ × ℤ × ℤ × ℤ × ℤ)) (g : ℤ → T),
      (octantFold f radius origin lut ps g).1 =
        applyEvents g (octantFold f radius origin lut ps g).2 := by
  intro ps
  induction ps with
  | nil => intro g; rfl
  | cons p ps ih =>
    intro g
    simp only [octantFold]
    rw [applyEvents_append, ← calcInterior_grid, ih]

theorem octantFold_values {T : Type} (f : UpdateFn T) (radius origin : ℤ) (lut : List ℚ) :
    ∀ (ps : List (ℤ × ℤ × ℤ × ℤ × ℤ × ℤ)) (g : ℤ → T),
      ∀ e ∈ (octantFold f radius origin lut ps g).2, e.value = f e.x e.y e.influxes := by
  intro ps
  induction ps with
  | nil => intro g e he; cases he
  | cons p ps ih =>
    intro g e he
    simp only [octantFold] at he
    rcases List.mem_append.mp he with he' | he'
    · exact calcInterior_values f p.1 p.2.1 p.2.2.1 p.2.2.2.1 p.2.2.2.2.1 p.2.2.2.2.2
        radius origin lut g e he'
    · exact ih _ e he'

theorem octantFold_triples {T : Type} (f : UpdateFn T) (radius origin : ℤ) (lut : List ℚ) :
    ∀ (ps : List (ℤ × ℤ × ℤ × ℤ × ℤ × ℤ)) (g : ℤ → T),
      (octantFold f radius origin lut ps g).2.map (fun e => (e.pos, e.x, e.y)) =
        ps.flatMap fun p =>
          interiorTriples p.1 p.2.1 p.2.2.1 p.2.2.2.1 p.2.2.2.2.1 p.2.2.2.2.2 radius origin := by
  intro ps
  induction ps with
  | nil => intro g; rfl
  | cons p ps ih =>
    intro g
    simp only [octantFold, List.map_append, List.flatMap_cons]
    rw [calcInterior_triples, ih]

/-! ## Lifting membership in a phase's trace-with-states to the whole trace -/

theorem tws_mem_left {T : Type} (g : ℤ → T) (A B : List (Event T))
    (q : (ℤ → T) × Event T) (h : q ∈ traceWithStates g A) :
    q ∈ traceWithStates g (A ++ B) := by
  rw [traceWithStates_append]
  exact List.mem_append_left _ h

theorem tws_mem_right {T : Type} (g g' : ℤ → T) (A B : List (Event T))
    (q : (ℤ → T) × Event T) (hg : g' = applyEvents g A)
    (h : q ∈ traceWithStates g' B) : q ∈ traceWithStates g (A ++ B) := by
  rw [traceWithStates_append]
  exact List.mem_append_right _ (hg ▸ h)

theorem tws_mem_cons {T : Type} (g g' : ℤ → T) (e : Event T) (B : List (Event T))
    (q : (ℤ → T) × Event T) (hg : g' = write g e.pos e.value)
    (h : q ∈ traceWithStates g' B) : q ∈ traceWithStates g (e :: B) := by
  unfold traceWithStates
  exact List.mem_cons_of_mem _ (hg ▸ h)

/-- Existence of the interior call for any requested octant and cell:
for every octant parameter tuple `p` occurring in `ps` and every cell
index pair `(a, i)` in range, somewhere in the octant fold's trace there
is the call for octant-local cell `(u, v) = (a + 2, i + 1)` of octant
`p`, and its event (together with the grid at call time) has exactly
the crossed influx shape of `calc_interior`. -/
theorem octantFold_cell {T : Type} (f : UpdateFn T) (radius origin : ℤ) (lut : List ℚ) :
    ∀ (ps : List (ℤ × ℤ × ℤ × ℤ × ℤ × ℤ)) (g : ℤ → T)
      (p : ℤ × ℤ × ℤ × ℤ × ℤ × ℤ), p ∈ ps →
      ∀ (a i : ℕ), a < (radius - 1).toNat → i ≤ a →
      ∃ q ∈ traceWithStates g (octantFold f radius origin lut ps g).2,
        q.2.pos = cellIndex origin p.2.2.2.2.1 p.2.2.2.2.2 ((a : ℤ) + 2) ((i : ℤ) + 1) ∧
        q.2.x = (cellWorld p.1 p.2.1 p.2.2.1 p.2.2.2.1 ((a : ℤ) + 2) ((i : ℤ) + 1)).1 ∧
        q.2.y = (cellWorld p.1 p.2.1 p.2.2.1 p.2.2.2.1 ((a : ℤ) + 2) ((i : ℤ) + 1)).2 ∧
        q.2.influxes =
          [⟨lut.getD (tri a + i) 0, -p.1, -p.2.2.1,
              q.1 (cellIndex origin p.2.2.2.2.1 p.2.2.2.2.2 ((a : ℤ) + 1) (i : ℤ))⟩,
           ⟨1 - lut.getD (tri a + i) 0, -(p.1 + p.2.1), -(p.2.2.1 + p.2.2.2.1),
              q.1 (cellIndex origin p.2.2.2.2.1 p.2.2.2.2.2 ((a : ℤ) + 1) ((i : ℤ) + 1))⟩] := by
  intro ps
  induction ps with
  | nil => intro g p hp; cases hp
  | cons p0 ps ih =>
    intro g p hp a i ha hi
    rcases List.mem_cons.mp hp with rfl | hp'
    · have hmem := mem_uvIdxCols 0 (radius - 1).toNat a i (Nat.zero_le a) (by omega) hi
      obtain ⟨q, hq, hprops⟩ := forall₂_exists_right
        (calcInterior_forall₂ f p.1 p.2.1 p.2.2.1 p.2.2.2.1 p.2.2.2.2.1 p.2.2.2.2.2
          radius origin lut g) (a, i) hmem
      refine ⟨q, ?_, hprops⟩
      simp only [octantFold]
      exact tws_mem_left g _ _ q hq
    · obtain ⟨q, hq, hprops⟩ := ih
        (calcInterior f p0.1 p0.2.1 p0.2.2.1 p0.2.2.2.1 p0.2.2.2.2.1 p0.2.2.2.2.2
          radius origin lut g).1 p hp' a i ha hi
      refine ⟨q, ?_, hprops⟩
      simp only [octantFold]
      exact tws_mem_right g _ _ _ q (calcInterior_grid ..) hq

/-! ## Master facts about `Fov::update` -/

theorem update_fluxField {T : Type} (fov : Fov T) (f : UpdateFn T) :
    (fov.update f).1.fluxField = fov.fluxField := by
  simp only [Fov.update]
  split_ifs <;> rfl

theorem update_radius {T : Type} (fov : Fov T) (f : UpdateFn T) :
    (fov.update f).1.radius = fov.radius := by
  simp only [Fov.update]
  split_ifs <;> rfl

theorem update_width {T : Type} (fov : Fov T) (f : UpdateFn T) :
    (fov.update f).1.width = fov.width := by
  simp only [Fov.update]
  split_ifs <;> rfl

theorem update_ixOrigin {T : Type} (fov : Fov T) (f : UpdateFn T) :
    (fov.update f).1.ixOrigin = fov.ixOrigin := by
  simp only [Fov.update]
  split_ifs <;> rfl

/-- The final grid of an update is the initial grid overwritten by the
trace's writes, in trace order. -/
theorem update_data {T : Type} (fov : Fov T) (f : UpdateFn T) :
    (fov.update f).1.data = applyEvents fov.data (fov.update f).2 := by
  simp only [Fov.update]
  split_ifs with h1 h2
  · simp only [applyEvents_cons, applyEvents_append]
    rw [← edgeFold_grid, ← octantFold_grid]
  · simp only [applyEvents_cons]
    rw [← edgeFold_grid]
  · rfl

/-- Every event's stored value is the update function applied to that
event's own arguments. -/
theorem update_values {T : Type} (fov : Fov T) (f : UpdateFn T) :
    ∀ e ∈ (fov.update f).2, e.value = f e.x e.y e.influxes := by
  simp only [Fov.update]
  split_ifs with h1 h2 <;> intro e he
  · rcases List.mem_cons.mp he with rfl | he'
    · rfl
    · rcases List.mem_append.mp he' with he'' | he''
      · exact edgeFold_values f fov.radius fov.ixOrigin _ _ e he''
      · exact octantFold_values f fov.radius fov.ixOrigin _ _ _ e he''
  · rcases List.mem_cons.mp he with rfl | he'
    · rfl
    · exact edgeFold_values f fov.radius fov.ixOrigin _ _ e he'
  · rcases List.mem_cons.mp he with rfl | he'
    · rfl
    · cases he'

/-- The `(flat index, world x, world y)` triples of all update-function
calls of one `Fov::update` pass, in call order: the origin, the eight
rays, the eight octant interiors.  For `radius = 0` the ray and interior
segments are empty, and for `radius = 1` the interior segments are
empty, so the same expression covers all three control-flow branches of
`update`. -/
def updateTriples (r w origin : ℤ) : List (ℤ × ℤ × ℤ) :=
  (origin, 0, 0) ::
    ((edgeDirs w).flatMap (fun d => edgeTriples r origin d.1 d.2.1 d.2.2) ++
     (octantParams w).flatMap (fun p =>
       interiorTriples p.1 p.2.1 p.2.2.1 p.2.2.2.1 p.2.2.2.2.1 p.2.2.2.2.2 r origin))

theorem uvList_nil_of_le_one {r : ℤ} (hr : r ≤ 1) : uvList r = [] := by
  unfold uvList uvCols
  rw [show (r - 1).toNat = 0 from by omega]
  rfl

theorem update_triples {T : Type} (fov : Fov T) (f : UpdateFn T) (hwf : fov.WF) :
    (fov.update f).2.map (fun e => (e.pos, e.x, e.y)) =
      updateTriples fov.radius fov.width fov.ixOrigin := by
  obtain ⟨hr0, hw, ho⟩ := hwf
  simp only [Fov.update, updateTriples]
  split_ifs with h1 h2
  · simp only [List.map_cons, List.map_append]
    rw [edgeFold_triples, octantFold_triples]
  · have hr1 : fov.radius = 1 := by omega
    simp only [List.map_cons]
    rw [edgeFold_triples]
    have hoct : (octantParams fov.width).flatMap (fun p =>
        interiorTriples p.1 p.2.1 p.2.2.1 p.2.2.2.1 p.2.2.2.2.1 p.2.2.2.2.2
          fov.radius fov.ixOrigin) = [] := by
      simp [octantParams, interiorTriples, uvList_nil_of_le_one (by omega : fov.radius ≤ 1)]
    rw [hoct, List.append_nil]
  · have hr00 : fov.radius = 0 := by omega
    have hedge : (edgeDirs fov.width).flatMap (fun d =>
        edgeTriples fov.radius fov.ixOrigin d.1 d.2.1 d.2.2) = [] := by
      simp [edgeDirs, edgeTriples, show fov.radius.toNat = 0 from by omega]
    have hoct : (octantParams fov.width).flatMap (fun p =>
        interiorTriples p.1 p.2.1 p.2.2.1 p.2.2.2.1 p.2.2.2.2.1 p.2.2.2.2.2
          fov.radius fov.ixOrigin) = [] := by
      simp [octantParams, interiorTriples, uvList_nil_of_le_one (by omega : fov.radius ≤ 1)]
    simp [hedge, hoct]

/-! ## The set of cells visited by one update -/

/-- World coordinates of the cells of one ray of unit direction
`(dx, dy)`, in walk order. -/
def edgeCells (r dx dy : ℤ) : List (ℤ × ℤ) :=
  (List.range r.toNat).map fun (i : ℕ) => (dx * ((i : ℤ) + 1), dy * ((i : ℤ) + 1))

/-- World coordinates of the interior cells of one octant, in traversal
order. -/
def octantCells (r mxu mxv myu myv : ℤ) : List (ℤ × ℤ) :=
  (uvList r).map fun p => cellWorld mxu mxv myu myv p.1 p.2

/-- The seventeen cell groups of one update — the origin, the eight
rays, the eight octant interiors — in call order. -/
def updateCellBlocks (r : ℤ) : List (List (ℤ × ℤ)) :=
  [[(0, 0)],
   edgeCells r 1 0, edgeCells r 1 1, edgeCells r 0 1, edgeCells r (-1) 1,
   edgeCells r (-1) 0, edgeCells r (-1) (-1), edgeCells r 0 (-1), edgeCells r 1 (-1),
   octantCells r 1 0 0 1, octantCells r 0 1 1 0, octantCells r 0 (-1) 1 0,
   octantCells r (-1) 0 0 1, octantCells r (-1) 0 0 (-1), octantCells r 0 (-1) (-1) 0,
   octantCells r 0 1 (-1) 0, octantCells r 1 0 0 (-1)]

/-- All world coordinates visited by one update, in call order. -/
def updateCells (r : ℤ) : List (ℤ × ℤ) :=
  (updateCellBlocks r).flatten

theorem edgeTriples_snd (r origin dx dy stride : ℤ) :
    (edgeTriples r origin dx dy stride).map (fun t => t.2) = edgeCells r dx dy := by
  unfold edgeTriples edgeCells
  rw [List.map_map]
  rfl

theorem interiorTriples_snd (mxu mxv myu myv us vs r origin : ℤ) :
    (interiorTriples mxu mxv myu myv us vs r origin).map (fun t => t.2) =
      octantCells r mxu mxv myu myv := by
  unfold interiorTriples octantCells
  rw [List.map_map]
  rfl

theorem updateTriples_cells (r w origin : ℤ) :
    (updateTriples r w origin).map (fun t => t.2) = updateCells r := by
  simp only [updateTriples, updateCells, updateCellBlocks, edgeDirs, octantParams,
    List.flatMap_cons, List.flatMap_nil, List.map_cons, List.map_append,
    List.map_flatMap, List.flatten, List.append_nil, List.append_assoc,
    List.singleton_append, edgeTriples_snd, interiorTriples_snd]

theorem mem_uvList {r : ℤ} {p : ℤ × ℤ} :
    p ∈ uvList r ↔ 2 ≤ p.1 ∧ p.1 ≤ r ∧ 1 ≤ p.2 ∧ p.2 ≤ p.1 - 1 := by
  unfold uvList uvCols
  rw [List.mem_flatMap]
  constructor
  · rintro ⟨a, ha, hp⟩
    rw [List.mem_range'_1] at ha
    obtain ⟨i, hi, rfl⟩ := List.mem_map.mp hp
    rw [List.mem_range] at hi
    refine ⟨by simp, ?_, by simp, ?_⟩ <;> simp <;> omega
  · rintro ⟨h1, h2, h3, h4⟩
    refine ⟨(p.1 - 2).toNat, List.mem_range'_1.mpr ⟨by omega, by omega⟩,
      List.mem_map.mpr ⟨(p.2 - 1).toNat, List.mem_range.mpr (by omega), ?_⟩⟩
    have : ((p.1 - 2).toNat : ℤ) = p.1 - 2 := by omega
    have : ((p.2 - 1).toNat : ℤ) = p.2 - 1 := by omega
    ext <;> simp <;> omega

theorem mem_edgeCells {r dx dy i : ℤ} (h1 : 1 ≤ i) (h2 : i ≤ r) :
    (dx * i, dy * i) ∈ edgeCells r dx dy := by
  unfold edgeCells
  refine List.mem_map.mpr ⟨(i - 1).toNat, List.mem_range.mpr (by omega), ?_⟩
  have : (((i - 1).toNat : ℕ) : ℤ) = i - 1 := by omega
  rw [this]
  norm_num

theorem mem_octantCells {r mxu mxv myu myv u v : ℤ} (h1 : 2 ≤ u) (h2 : u ≤ r)
    (h3 : 1 ≤ v) (h4 : v ≤ u - 1) :
    cellWorld mxu mxv myu myv u v ∈ octantCells r mxu mxv myu myv :=
  List.mem_map.mpr ⟨(u, v), mem_uvList.mpr ⟨h1, h2, h3, h4⟩, rfl⟩

/-- Every cell of a ray has the form `(dx·i, dy·i)`, `1 ≤ i ≤ r`. -/
theorem edgeCells_prop (r dx dy : ℤ) (P : ℤ × ℤ → Prop)
    (h : ∀ i : ℤ, 1 ≤ i → i ≤ r → P (dx * i, dy * i)) :
    ∀ c ∈ edgeCells r dx dy, P c := by
  intro c hc
  obtain ⟨i, hi, rfl⟩ := List.mem_map.mp hc
  rw [List.mem_range] at hi
  exact h ((i : ℤ) + 1) (by omega) (by omega)

/-- Every interior cell of an octant is the basis image of some
`(u, v)` with `2 ≤ u ≤ r`, `1 ≤ v ≤ u - 1`. -/
theorem octantCells_prop (r mxu mxv myu myv : ℤ) (P : ℤ × ℤ → Prop)
    (h : ∀ u v : ℤ, 2 ≤ u → u ≤ r → 1 ≤ v → v ≤ u - 1 →
      P (cellWorld mxu mxv myu myv u v)) :
    ∀ c ∈ octantCells r mxu mxv myu myv, P c := by
  intro c hc
  obtain ⟨p, hp, rfl⟩ := List.mem_map.mp hc
  obtain ⟨h1, h2, h3, h4⟩ := mem_uvList.mp hp
  exact h p.1 p.2 h1 h2 h3 h4

/-- A classifier of the square grid into the seventeen disjoint groups
used by the traversal: origin, the eight rays, the eight open octants.
The group indices match the order of `updateCellBlocks`. -/
def region (x y : ℤ) : ℕ :=
  if x = 0 ∧ y = 0 then 0
  else if 0 < x ∧ y = 0 then 1
  else if 0 < x ∧ y = x then 2
  else if x = 0 ∧ 0 < y then 3
  else if x < 0 ∧ y = -x then 4
  else if x < 0 ∧ y = 0 then 5
  else if x < 0 ∧ y = x then 6
  else if x = 0 ∧ y < 0 then 7
  else if 0 < x ∧ y = -x then 8
  else if 0 < y ∧ y < x then 9
  else if 0 < x ∧ x < y then 10
  else if 0 < -x ∧ -x < y then 11
  else if 0 < y ∧ y < -x then 12
  else if 0 < -y ∧ -y < -x then 13
  else if 0 < -x ∧ -x < -y then 14
  else if 0 < x ∧ x < -y then 15
  else if 0 < -y ∧ -y < x then 16
  else 17

/-! ## No cell is visited twice -/

theorem forall₂_exists_left {α β : Type _} {R : α → β → Prop} {l₁ : List α}
    {l₂ : List β} (h : List.Forall₂ R l₁ l₂) (a : α) (ha : a ∈ l₁) :
    ∃ b ∈ l₂, R a b := by
  induction h with
  | nil => cases ha
  | cons hR hF ih =>
    rcases List.mem_cons.mp ha with rfl | ha'
    · exact ⟨_, List.mem_cons_self .., hR⟩
    · obtain ⟨b, hb, hab⟩ := ih ha'
      exact ⟨b, List.mem_cons_of_mem _ hb, hab⟩

/-- Lists whose elements carry pairwise distinct labels are pairwise
disjoint. -/
theorem pairwise_disjoint_of_labels {α : Type _} (f : α → ℕ) :
    ∀ (L : List (List α)) (ls : List ℕ),
      List.Forall₂ (fun A k => ∀ a ∈ A, f a = k) L ls →
      ls.Pairwise (fun a b => a ≠ b) → L.Pairwise List.Disjoint := by
  intro L ls h
  induction h with
  | nil => intro _; exact List.Pairwise.nil
  | cons hA hF ih =>
    intro hp
    rw [List.pairwise_cons] at hp
    rw [List.pairwise_cons]
    refine ⟨?_, ih hp.2⟩
    intro B hB a haA haB
    obtain ⟨k', hk', hBk⟩ := forall₂_exists_left hF B hB
    exact hp.1 k' hk' (by rw [← hA a haA, ← hBk a haB])

theorem updateCellBlocks_labels (r : ℤ) :
    List.Forall₂ (fun (A : List (ℤ × ℤ)) (k : ℕ) => ∀ c ∈ A, region c.1 c.2 = k)
      (updateCellBlocks r)
      [0, 1, 2, 3, 4, 5, 6, 7, 8, 9, 10, 11, 12, 13, 14, 15, 16] := by
  unfold updateCellBlocks
  refine List.Forall₂.cons ?_ (List.Forall₂.cons ?_ (List.Forall₂.cons ?_
    (List.Forall₂.cons ?_ (List.Forall₂.cons ?_ (List.Forall₂.cons ?_
    (List.Forall₂.cons ?_ (List.Forall₂.cons ?_ (List.Forall₂.cons ?_
    (List.Forall₂.cons ?_ (List.Forall₂.cons ?_ (List.Forall₂.cons ?_
    (List.Forall₂.cons ?_ (List.Forall₂.cons ?_ (List.Forall₂.cons ?_
    (List.Forall₂.cons ?_ (List.Forall₂.cons ?_ List.Forall₂.nil))))))))))))))))
  · intro c hc
    rw [List.mem_singleton] at hc
    subst hc
    decide
  · refine edgeCells_prop r 1 0 _ fun i h1 h2 => ?_
    show region (1 * i) (0 * i) = 1
    rw [region]
    rw [if_neg (by omega)]
    rw [if_pos (by omega)]
  · refine edgeCells_prop r 1 1 _ fun i h1 h2 => ?_
    show region (1 * i) (1 * i) = 2
    rw [region]
    rw [if_neg (by omega), if_neg (by omega)]
    rw [if_pos (by omega)]
  · refine edgeCells_prop r 0 1 _ fun i h1 h2 => ?_
    show region (0 * i) (1 * i) = 3
    rw [region]
    rw [if_neg (by omega), if_neg (by omega), if_neg (by omega)]
    rw [if_pos (by omega)]
  · refine edgeCells_prop r (-1) 1 _ fun i h1 h2 => ?_
    show region ((-1) * i) (1 * i) = 4
    rw [region]
    rw [if_neg (by omega), if_neg (by omega), if_neg (by omega)]
    rw [if_neg (by omega)]
    rw [if_pos (by omega)]
  · refine edgeCells_prop r (-1) 0 _ fun i h1 h2 => ?_
    show region ((-1) * i) (0 * i) = 5
    rw [region]
    rw [if_neg (by omega), if_neg (by omega), if_neg (by omega)]
    rw [if_neg (by omega), if_neg (by omega)]
    rw [if_pos (by omega)]
  · refine edgeCells_prop r (-1) (-1) _ fun i h1 h2 => ?_
    show region ((-1) * i) ((-1) * i) = 6
    rw [region]
    rw [if_neg (by omega), if_neg (by omega), if_neg (by omega)]
    rw [if_neg (by omega), if_neg (by omega), if_neg (by omega)]
    rw [if_pos (by omega)]
  · refine edgeCells_prop r 0 (-1) _ fun i h1 h2 => ?_
    show region (0 * i) ((-1) * i) = 7
    rw [region]
    rw [if_neg (by omega), if_neg (by omega), if_neg (by omega)]
    rw [if_neg (by omega), if_neg (by omega), if_neg (by omega)]
    rw [if_neg (by omega)]
    rw [if_pos (by omega)]
  · refine edgeCells_prop r 1 (-1) _ fun i h1 h2 => ?_
    show region (1 * i) ((-1) * i) = 8
    rw [region]
    rw [if_neg (by omega), if_neg (by omega), if_neg (by omega)]
    rw [if_neg (by omega), if_neg (by omega), if_neg (by omega)]
    rw [if_neg (by omega), if_neg (by omega)]
    rw [if_pos (by omega)]
  · refine octantCells_prop r 1 0 0 1 _ fun u v h1 h2 h3 h4 => ?_
    show region (1 * u + 0 * v) (0 * u + 1 * v) = 9
    rw [region]
    rw [if_neg (by omega), if_neg (by omega), if_neg (by omega)]
    rw [if_neg (by omega), if_neg (by omega), if_neg (by omega)]
    rw [if_neg (by omega), if_neg (by omega), if_neg (by omega)]
    rw [if_pos (by omega)]
  · refine octantCells_prop r 0 1 1 0 _ fun u v h1 h2 h3 h4 => ?_
    show region (0 * u + 1 * v) (1 * u + 0 * v) = 10
    rw [region]
    rw [if_neg (by omega), if_neg (by omega), if_neg (by omega)]
    rw [if_neg (by omega), if_neg (by omega), if_neg (by omega)]
    rw [if_neg (by omega), if_neg (by omega), if_neg (by omega)]
    rw [if_neg (by omega)]
    rw [if_pos (by omega)]
  · refine octantCells_prop r 0 (-1) 1 0 _ fun u v h1 h2 h3 h4 => ?_
    show region (0 * u + (-1) * v) (1 * u + 0 * v) = 11
    rw [region]
    rw [if_neg (by omega), if_neg (by omega), if_neg (by omega)]
    rw [if_neg (by omega), if_neg (by omega), if_neg (by omega)]
    rw [if_neg (by omega), if_neg (by omega), if_neg (by omega)]
    rw [if_neg (by omega), if_neg (by omega)]
    rw [if_pos (by omega)]
  · refine octantCells_prop r (-1) 0 0 1 _ fun u v h1 h2 h3 h4 => ?_
    show region ((-1) * u + 0 * v) (0 * u + 1 * v) = 12
    rw [region]
    rw [if_neg (by omega), if_neg (by omega), if_neg (by omega)]
    rw [if_neg (by omega), if_neg (by omega), if_neg (by omega)]
    rw [if_neg (by omega), if_neg (by omega), if_neg (by omega)]
    rw [if_neg (by omega), if_neg (by omega), if_neg (by omega)]
    rw [if_pos (by omega)]
  · refine octantCells_prop r (-1) 0 0 (-1) _ fun u v h1 h2 h3 h4 => ?_
    show region ((-1) * u + 0 * v) (0 * u + (-1) * v) = 13
    rw [region]
    rw [if_neg (by omega), if_neg (by omega), if_neg (by omega)]
    rw [if_neg (by omega), if_neg (by omega), if_neg (by omega)]
    rw [if_neg (by omega), if_neg (by omega), if_neg (by omega)]
    rw [if_neg (by omega), if_neg (by omega), if_neg (by omega)]
    rw [if_neg (by omega)]
    rw [if_pos (by omega)]
  · refine octantCells_prop r 0 (-1) (-1) 0 _ fun u v h1 h2 h3 h4 => ?_
    show region (0 * u + (-1) * v) ((-1) * u + 0 * v) = 14
    rw [region]
    rw [if_neg (by omega), if_neg (by omega), if_neg (by omega)]
    rw [if_neg (by omega), if_neg (by omega), if_neg (by omega)]
    rw [if_neg (by omega), if_neg (by omega), if_neg (by omega)]
    rw [if_neg (by omega), if_neg (by omega), if_neg (by omega)]
    rw [if_neg (by omega), if_neg (by omega)]
    rw [if_pos (by omega)]
  · refine octantCells_prop r 0 1 (-1) 0 _ fun u v h1 h2 h3 h4 => ?_
    show region (0 * u + 1 * v) ((-1) * u + 0 * v) = 15
    rw [region]
    rw [if_neg (by omega), if_neg (by omega), if_neg (by omega)]
    rw [if_neg (by omega), if_neg (by omega), if_neg (by omega)]
    rw [if_neg (by omega), if_neg (by omega), if_neg (by omega)]
    rw [if_neg (by omega), if_neg (by omega), if_neg (by omega)]
    rw [if_neg (by omega), if_neg (by omega), if_neg (by omega)]
    rw [if_pos (by omega)]
  · refine octantCells_prop r 1 0 0 (-1) _ fun u v h1 h2 h3 h4 => ?_
    show region (1 * u + 0 * v) (0 * u + (-1) * v) = 16
    rw [region]
    rw [if_neg (by omega), if_neg (by omega), if_neg (by omega)]
    rw [if_neg (by omega), if_neg (by omega), if_neg (by omega)]
    rw [if_neg (by omega), if_neg (by omega), if_neg (by omega)]
    rw [if_neg (by omega), if_neg (by omega), if_neg (by omega)]
    rw [if_neg (by omega), if_neg (by omega), if_neg (by omega)]
    rw [if_neg (by omega)]
    rw [if_pos (by omega)]

theorem edgeCells_nodup (r dx dy : ℤ) (h : dx ≠ 0 ∨ dy ≠ 0) :
    (edgeCells r dx dy).Nodup := by
  unfold edgeCells
  refine List.Nodup.map_on ?_ (List.nodup_range _)
  intro i _ j _ heq
  rw [Prod.mk.injEq] at heq
  rcases h with h | h
  · have := mul_left_cancel₀ h heq.1
    omega
  · have := mul_left_cancel₀ h heq.2
    omega

theorem uvCols_fst {j n : ℕ} : ∀ c ∈ uvCols j n, (j : ℤ) + 2 ≤ c.1 := by
  intro c hc
  unfold uvCols at hc
  rw [List.mem_flatMap] at hc
  obtain ⟨a, ha, hc'⟩ := hc
  rw [List.mem_range'_1] at ha
  obtain ⟨i, _, rfl⟩ := List.mem_map.mp hc'
  simp only
  omega

theorem uvCols_nodup : ∀ (n j : ℕ), (uvCols j n).Nodup := by
  intro n
  induction n with
  | zero => intro j; exact List.nodup_nil
  | succ n ih =>
    intro j
    have huv : uvCols j (n + 1) =
        ((List.range (j + 1)).map fun (i : ℕ) => ((j : ℤ) + 2, (i : ℤ) + 1)) ++
          uvCols (j + 1) n := by
      unfold uvCols
      rw [List.range'_succ, List.flatMap_cons]
    rw [huv, List.nodup_append]
    refine ⟨?_, ih (j + 1), ?_⟩
    · refine List.Nodup.map_on ?_ (List.nodup_range _)
      intro i1 _ i2 _ heq
      rw [Prod.mk.injEq] at heq
      omega
    · intro c hc1 hc2
      obtain ⟨i, _, rfl⟩ := List.mem_map.mp hc1
      have := uvCols_fst _ hc2
      simp only at this
      omega

theorem uvList_nodup (r : ℤ) : (uvList r).Nodup := uvCols_nodup _ 0

theorem octantCells_nodup (r mxu mxv myu myv : ℤ)
    (h : ∀ p q : ℤ × ℤ, cellWorld mxu mxv myu myv p.1 p.2 =
      cellWorld mxu mxv myu myv q.1 q.2 → p = q) :
    (octantCells r mxu mxv myu myv).Nodup :=
  List.Nodup.map_on (fun p _ q _ hpq => h p q hpq) (uvList_nodup r)

theorem updateCells_nodup (r : ℤ) : (updateCells r).Nodup := by
  rw [updateCells, List.nodup_flatten]
  constructor
  · intro A hA
    simp only [updateCellBlocks, List.mem_cons, List.not_mem_nil, or_false] at hA
    rcases hA with rfl | rfl | rfl | rfl | rfl | rfl | rfl | rfl | rfl | rfl | rfl |
      rfl | rfl | rfl | rfl | rfl | rfl
    · exact List.nodup_singleton _
    · exact edgeCells_nodup r 1 0 (by norm_num)
    · exact edgeCells_nodup r 1 1 (by norm_num)
    · exact edgeCells_nodup r 0 1 (by norm_num)
    · exact edgeCells_nodup r (-1) 1 (by norm_num)
    · exact edgeCells_nodup r (-1) 0 (by norm_num)
    · exact edgeCells_nodup r (-1) (-1) (by norm_num)
    · exact edgeCells_nodup r 0 (-1) (by norm_num)
    · exact edgeCells_nodup r 1 (-1) (by norm_num)
    · exact octantCells_nodup r 1 0 0 1 fun p q heq => by
        simp only [cellWorld, Prod.mk.injEq] at heq
        exact Prod.ext (by omega) (by omega)
    · exact octantCells_nodup r 0 1 1 0 fun p q heq => by
        simp only [cellWorld, Prod.mk.injEq] at heq
        exact Prod.ext (by omega) (by omega)
    · exact octantCells_nodup r 0 (-1) 1 0 fun p q heq => by
        simp only [cellWorld, Prod.mk.injEq] at heq
        exact Prod.ext (by omega) (by omega)
    · exact octantCells_nodup r (-1) 0 0 1 fun p q heq => by
        simp only [cellWorld, Prod.mk.injEq] at heq
        exact Prod.ext (by omega) (by omega)
    · exact octantCells_nodup r (-1) 0 0 (-1) fun p q heq => by
        simp only [cellWorld, Prod.mk.injEq] at heq
        exact Prod.ext (by omega) (by omega)
    · exact octantCells_nodup r 0 (-1) (-1) 0 fun p q heq => by
        simp only [cellWorld, Prod.mk.injEq] at heq
        exact Prod.ext (by omega) (by omega)
    · exact octantCells_nodup r 0 1 (-1) 0 fun p q heq => by
        simp only [cellWorld, Prod.mk.injEq] at heq
        exact Prod.ext (by omega) (by omega)
    · exact octantCells_nodup r 1 0 0 (-1) fun p q heq => by
        simp only [cellWorld, Prod.mk.injEq] at heq
        exact Prod.ext (by omega) (by omega)
  · exact pairwise_disjoint_of_labels (fun c => region c.1 c.2) _ _
      (updateCellBlocks_labels r) (by decide)

/-! ## Bounds and coverage of the visited cells -/

theorem updateCells_bounds (r : ℤ) (hr : 0 ≤ r) :
    ∀ c ∈ updateCells r, -r ≤ c.1 ∧ c.1 ≤ r ∧ -r ≤ c.2 ∧ c.2 ≤ r := by
  intro c hc
  rw [updateCells, List.mem_flatten] at hc
  obtain ⟨A, hA, hcA⟩ := hc
  simp only [updateCellBlocks, List.mem_cons, List.not_mem_nil, or_false] at hA
  rcases hA with rfl | rfl | rfl | rfl | rfl | rfl | rfl | rfl | rfl | rfl | rfl |
    rfl | rfl | rfl | rfl | rfl | rfl
  · rw [List.mem_singleton] at hcA
    subst hcA
    refine ⟨by omega, by omega, by omega, by omega⟩
  · refine edgeCells_prop r 1 0
      (fun c => -r ≤ c.1 ∧ c.1 ≤ r ∧ -r ≤ c.2 ∧ c.2 ≤ r) (fun i h1 h2 => ?_) c hcA
    show -r ≤ 1 * i ∧ 1 * i ≤ r ∧ -r ≤ 0 * i ∧ 0 * i ≤ r
    omega
  · refine edgeCells_prop r 1 1
      (fun c => -r ≤ c.1 ∧ c.1 ≤ r ∧ -r ≤ c.2 ∧ c.2 ≤ r) (fun i h1 h2 => ?_) c hcA
    show -r ≤ 1 * i ∧ 1 * i ≤ r ∧ -r ≤ 1 * i ∧ 1 * i ≤ r
    omega
  · refine edgeCells_prop r 0 1
      (fun c => -r ≤ c.1 ∧ c.1 ≤ r ∧ -r ≤ c.2 ∧ c.2 ≤ r) (fun i h1 h2 => ?_) c hcA
    show -r ≤ 0 * i ∧ 0 * i ≤ r ∧ -r ≤ 1 * i ∧ 1 * i ≤ r
    omega
  · refine edgeCells_prop r (-1) 1
      (fun c => -r ≤ c.1 ∧ c.1 ≤ r ∧ -r ≤ c.2 ∧ c.2 ≤ r) (fun i h1 h2 => ?_) c hcA
    show -r ≤ (-1) * i ∧ (-1) * i ≤ r ∧ -r ≤ 1 * i ∧ 1 * i ≤ r
    omega
  · refine edgeCells_prop r (-1) 0
      (fun c => -r ≤ c.1 ∧ c.1 ≤ r ∧ -r ≤ c.2 ∧ c.2 ≤ r) (fun i h1 h2 => ?_) c hcA
    show -r ≤ (-1) * i ∧ (-1) * i ≤ r ∧ -r ≤ 0 * i ∧ 0 * i ≤ r
    omega
  · refine edgeCells_prop r (-1) (-1)
      (fun c => -r ≤ c.1 ∧ c.1 ≤ r ∧ -r ≤ c.2 ∧ c.2 ≤ r) (fun i h1 h2 => ?_) c hcA
    show -r ≤ (-1) * i ∧ (-1) * i ≤ r ∧ -r ≤ (-1) * i ∧ (-1) * i ≤ r
    omega
  · refine edgeCells_prop r 0 (-1)
      (fun c => -r ≤ c.1 ∧ c.1 ≤ r ∧ -r ≤ c.2 ∧ c.2 ≤ r) (fun i h1 h2 => ?_) c hcA
    show -r ≤ 0 * i ∧ 0 * i ≤ r ∧ -r ≤ (-1) * i ∧ (-1) * i ≤ r
    omega
  · refine edgeCells_prop r 1 (-1)
      (fun c => -r ≤ c.1 ∧ c.1 ≤ r ∧ -r ≤ c.2 ∧ c.2 ≤ r) (fun i h1 h2 => ?_) c hcA
    show -r ≤ 1 * i ∧ 1 * i ≤ r ∧ -r ≤ (-1) * i ∧ (-1) * i ≤ r
    omega
  · refine octantCells_prop r 1 0 0 1
      (fun c => -r ≤ c.1 ∧ c.1 ≤ r ∧ -r ≤ c.2 ∧ c.2 ≤ r) (fun u v h1 h2 h3 h4 => ?_) c hcA
    show -r ≤ 1 * u + 0 * v ∧ 1 * u + 0 * v ≤ r ∧
      -r ≤ 0 * u + 1 * v ∧ 0 * u + 1 * v ≤ r
    omega
  · refine octantCells_prop r 0 1 1 0
      (fun c => -r ≤ c.1 ∧ c.1 ≤ r ∧ -r ≤ c.2 ∧ c.2 ≤ r) (fun u v h1 h2 h3 h4 => ?_) c hcA
    show -r ≤ 0 * u + 1 * v ∧ 0 * u + 1 * v ≤ r ∧
      -r ≤ 1 * u + 0 * v ∧ 1 * u + 0 * v ≤ r
    omega
  · refine octantCells_prop r 0 (-1) 1 0
      (fun c => -r ≤ c.1 ∧ c.1 ≤ r ∧ -r ≤ c.2 ∧ c.2 ≤ r) (fun u v h1 h2 h3 h4 => ?_) c hcA
    show -r ≤ 0 * u + (-1) * v ∧ 0 * u + (-1) * v ≤ r ∧
      -r ≤ 1 * u + 0 * v ∧ 1 * u + 0 * v ≤ r
    omega
  · refine octantCells_prop r (-1) 0 0 1
      (fun c => -r ≤ c.1 ∧ c.1 ≤ r ∧ -r ≤ c.2 ∧ c.2 ≤ r) (fun u v h1 h2 h3 h4 => ?_) c hcA
    show -r ≤ (-1) * u + 0 * v ∧ (-1) * u + 0 * v ≤ r ∧
      -r ≤ 0 * u + 1 * v ∧ 0 * u + 1 * v ≤ r
    omega
  · refine octantCells_prop r (-1) 0 0 (-1)
      (fun c => -r ≤ c.1 ∧ c.1 ≤ r ∧ -r ≤ c.2 ∧ c.2 ≤ r) (fun u v h1 h2 h3 h4 => ?_) c hcA
    show -r ≤ (-1) * u + 0 * v ∧ (-1) * u + 0 * v ≤ r ∧
      -r ≤ 0 * u + (-1) * v ∧ 0 * u + (-1) * v ≤ r
    omega
  · refine octantCells_prop r 0 (-1) (-1) 0
      (fun c => -r ≤ c.1 ∧ c.1 ≤ r ∧ -r ≤ c.2 ∧ c.2 ≤ r) (fun u v h1 h2 h3 h4 => ?_) c hcA
    show -r ≤ 0 * u + (-1) * v ∧ 0 * u + (-1) * v ≤ r ∧
      -r ≤ (-1) * u + 0 * v ∧ (-1) * u + 0 * v ≤ r
    omega
  · refine octantCells_prop r 0 1 (-1) 0
      (fun c => -r ≤ c.1 ∧ c.1 ≤ r ∧ -r ≤ c.2 ∧ c.2 ≤ r) (fun u v h1 h2 h3 h4 => ?_) c hcA
    show -r ≤ 0 * u + 1 * v ∧ 0 * u + 1 * v ≤ r ∧
      -r ≤ (-1) * u + 0 * v ∧ (-1) * u + 0 * v ≤ r
    omega
  · refine octantCells_prop r 1 0 0 (-1)
      (fun c => -r ≤ c.1 ∧ c.1 ≤ r ∧ -r ≤ c.2 ∧ c.2 ≤ r) (fun u v h1 h2 h3 h4 => ?_) c hcA
    show -r ≤ 1 * u + 0 * v ∧ 1 * u + 0 * v ≤ r ∧
      -r ≤ 0 * u + (-1) * v ∧ 0 * u + (-1) * v ≤ r
    omega

theorem updateCells_cover (r x y : ℤ) (hx1 : -r ≤ x) (hx2 : x ≤ r)
    (hy1 : -r ≤ y) (hy2 : y ≤ r) : (x, y) ∈ updateCells r := by
  rw [updateCells, List.mem_flatten]
  by_cases c0 : x = 0 ∧ y = 0
  · exact ⟨[(0, 0)], by simp [updateCellBlocks],
      by rw [List.mem_singleton, Prod.mk.injEq]; exact ⟨c0.1, c0.2⟩⟩
  by_cases c1 : 0 < x ∧ y = 0
  · refine ⟨edgeCells r 1 0, by simp [updateCellBlocks], ?_⟩
    have h := @mem_edgeCells r 1 0 x
      (by omega) (by omega)
    have heq : ((1 : ℤ) * x, (0 : ℤ) * x) = (x, y) :=
      Prod.ext (by omega) (by omega)
    exact heq ▸ h
  by_cases c2 : 0 < x ∧ y = x
  · refine ⟨edgeCells r 1 1, by simp [updateCellBlocks], ?_⟩
    have h := @mem_edgeCells r 1 1 x
      (by omega) (by omega)
    have heq : ((1 : ℤ) * x, (1 : ℤ) * x) = (x, y) :=
      Prod.ext (by omega) (by omega)
    exact heq ▸ h
  by_cases c3 : x = 0 ∧ 0 < y
  · refine ⟨edgeCells r 0 1, by simp [updateCellBlocks], ?_⟩
    have h := @mem_edgeCells r 0 1 y
      (by omega) (by omega)
    have heq : ((0 : ℤ) * y, (1 : ℤ) * y) = (x, y) :=
      Prod.ext (by omega) (by omega)
    exact heq ▸ h
  by_cases c4 : x < 0 ∧ y = -x
  · refine ⟨edgeCells r (-1) 1, by simp [updateCellBlocks], ?_⟩
    have h := @mem_edgeCells r (-1) 1 y
      (by omega) (by omega)
    have heq : (((-1) : ℤ) * y, (1 : ℤ) * y) = (x, y) :=
      Prod.ext (by omega) (by omega)
    exact heq ▸ h
  by_cases c5 : x < 0 ∧ y = 0
  · refine ⟨edgeCells r (-1) 0, by simp [updateCellBlocks], ?_⟩
    have h := @mem_edgeCells r (-1) 0 (-x)
      (by omega) (by omega)
    have heq : (((-1) : ℤ) * (-x), (0 : ℤ) * (-x)) = (x, y) :=
      Prod.ext (by omega) (by omega)
    exact heq ▸ h
  by_cases c6 : x < 0 ∧ y = x
  · refine ⟨edgeCells r (-1) (-1), by simp [updateCellBlocks], ?_⟩
    have h := @mem_edgeCells r (-1) (-1) (-x)
      (by omega) (by omega)
    have heq : (((-1) : ℤ) * (-x), ((-1) : ℤ) * (-x)) = (x, y) :=
      Prod.ext (by omega) (by omega)
    exact heq ▸ h
  by_cases c7 : x = 0 ∧ y < 0
  · refine ⟨edgeCells r 0 (-1), by simp [updateCellBlocks], ?_⟩
    have h := @mem_edgeCells r 0 (-1) (-y)
      (by omega) (by omega)
    have heq : ((0 : ℤ) * (-y), ((-1) : ℤ) * (-y)) = (x, y) :=
      Prod.ext (by omega) (by omega)
    exact heq ▸ h
  by_cases c8 : 0 < x ∧ y = -x
  · refine ⟨edgeCells r 1 (-1), by simp [updateCellBlocks], ?_⟩
    have h := @mem_edgeCells r 1 (-1) x
      (by omega) (by omega)
    have heq : ((1 : ℤ) * x, ((-1) : ℤ) * x) = (x, y) :=
      Prod.ext (by omega) (by omega)
    exact heq ▸ h
  by_cases c9 : 0 < y ∧ y < x
  · refine ⟨octantCells r 1 0 0 1, by simp [updateCellBlocks], ?_⟩
    have h := @mem_octantCells r 1 0 0
      1 x y (by omega) (by omega) (by omega) (by omega)
    have heq : cellWorld 1 0 0 1 x y = (x, y) := by
      unfold cellWorld
      exact Prod.ext (by show 1 * x + 0 * y = x; omega)
        (by show 0 * x + 1 * y = y; omega)
    exact heq ▸ h
  by_cases c10 : 0 < x ∧ x < y
  · refine ⟨octantCells r 0 1 1 0, by simp [updateCellBlocks], ?_⟩
    have h := @mem_octantCells r 0 1 1
      0 y x (by omega) (by omega) (by omega) (by omega)
    have heq : cellWorld 0 1 1 0 y x = (x, y) := by
      unfold cellWorld
      exact Prod.ext (by show 0 * y + 1 * x = x; omega)
        (by show 1 * y + 0 * x = y; omega)
    exact heq ▸ h
  by_cases c11 : 0 < -x ∧ -x < y
  · refine ⟨octantCells r 0 (-1) 1 0, by simp [updateCellBlocks], ?_⟩
    have h := @mem_octantCells r 0 (-1) 1
      0 y (-x) (by omega) (by omega) (by omega) (by omega)
    have heq : cellWorld 0 (-1) 1 0 y (-x) = (x, y) := by
      unfold cellWorld
      exact Prod.ext (by show 0 * y + (-1) * (-x) = x; omega)
        (by show 1 * y + 0 * (-x) = y; omega)
    exact heq ▸ h
  by_cases c12 : 0 < y ∧ y < -x
  · refine ⟨octantCells r (-1) 0 0 1, by simp [updateCellBlocks], ?_⟩
    have h := @mem_octantCells r (-1) 0 0
      1 (-x) y (by omega) (by omega) (by omega) (by omega)
    have heq : cellWorld (-1) 0 0 1 (-x) y = (x, y) := by
      unfold cellWorld
      exact Prod.ext (by show (-1) * (-x) + 0 * y = x; omega)
        (by show 0 * (-x) + 1 * y = y; omega)
    exact heq ▸ h
  by_cases c13 : 0 < -y ∧ -y < -x
  · refine ⟨octantCells r (-1) 0 0 (-1), by simp [updateCellBlocks], ?_⟩
    have h := @mem_octantCells r (-1) 0 0
      (-1) (-x) (-y) (by omega) (by omega) (by omega) (by omega)
    have heq : cellWorld (-1) 0 0 (-1) (-x) (-y) = (x, y) := by
      unfold cellWorld
      exact Prod.ext (by show (-1) * (-x) + 0 * (-y) = x; omega)
        (by show 0 * (-x) + (-1) * (-y) = y; omega)
    exact heq ▸ h
  by_cases c14 : 0 < -x ∧ -x < -y
  · refine ⟨octantCells r 0 (-1) (-1) 0, by simp [updateCellBlocks], ?_⟩
    have h := @mem_octantCells r 0 (-1) (-1)
      0 (-y) (-x) (by omega) (by omega) (by omega) (by omega)
    have heq : cellWorld 0 (-1) (-1) 0 (-y) (-x) = (x, y) := by
      unfold cellWorld
      exact Prod.ext (by show 0 * (-y) + (-1) * (-x) = x; omega)
        (by show (-1) * (-y) + 0 * (-x) = y; omega)
    exact heq ▸ h
  by_cases c15 : 0 < x ∧ x < -y
  · refine ⟨octantCells r 0 1 (-1) 0, by simp [updateCellBlocks], ?_⟩
    have h := @mem_octantCells r 0 1 (-1)
      0 (-y) x (by omega) (by omega) (by omega) (by omega)
    have heq : cellWorld 0 1 (-1) 0 (-y) x = (x, y) := by
      unfold cellWorld
      exact Prod.ext (by show 0 * (-y) + 1 * x = x; omega)
        (by show (-1) * (-y) + 0 * x = y; omega)
    exact heq ▸ h
  by_cases c16 : 0 < -y ∧ -y < x
  · refine ⟨octantCells r 1 0 0 (-1), by simp [updateCellBlocks], ?_⟩
    have h := @mem_octantCells r 1 0 0
      (-1) x (-y) (by omega) (by omega) (by omega) (by omega)
    have heq : cellWorld 1 0 0 (-1) x (-y) = (x, y) := by
      unfold cellWorld
      exact Prod.ext (by show 1 * x + 0 * (-y) = x; omega)
        (by show 0 * x + (-1) * (-y) = y; omega)
    exact heq ▸ h
  exact absurd trivial (by omega)

/-- The flat-index map `(x, y) ↦ w·y + x` is injective on the square of
radius `r` when `w = 2r + 1`. -/
theorem flat_index_inj (r w x1 y1 x2 y2 : ℤ) (hw : w = 2 * r + 1)
    (h1 : -r ≤ x1) (h2 : x1 ≤ r) (h3 : -r ≤ y1) (h4 : y1 ≤ r)
    (h5 : -r ≤ x2) (h6 : x2 ≤ r) (h7 : -r ≤ y2) (h8 : y2 ≤ r)
    (heq : w * y1 + x1 = w * y2 + x2) : x1 = x2 ∧ y1 = y2 := by
  have hy : y1 = y2 := by
    rcases lt_trichotomy y1 y2 with h | h | h
    · exfalso
      have ha : (1 : ℤ) ≤ y2 - y1 := by omega
      have hb : w * 1 ≤ w * (y2 - y1) := mul_le_mul_of_nonneg_left ha (by omega)
      have hc : w * (y2 - y1) = x1 - x2 := by linear_combination -heq
      rw [mul_one] at hb
      omega
    · exact h
    · exfalso
      have ha : (1 : ℤ) ≤ y1 - y2 := by omega
      have hb : w * 1 ≤ w * (y1 - y2) := mul_le_mul_of_nonneg_left ha (by omega)
      have hc : w * (y1 - y2) = x2 - x1 := by linear_combination heq
      rw [mul_one] at hb
      omega
  refine ⟨?_, hy⟩
  subst hy
  linarith

/-! ## Flat positions of the visited cells -/

theorem edgeTriples_pos (r origin dx dy stride w : ℤ) (h : stride = w * dy + dx) :
    ∀ t ∈ edgeTriples r origin dx dy stride, t.1 = origin + w * t.2.2 + t.2.1 := by
  intro t ht
  obtain ⟨i, _, rfl⟩ := List.mem_map.mp ht
  show origin + stride * ((i : ℤ) + 1) = origin + w * (dy * ((i : ℤ) + 1)) + dx * ((i : ℤ) + 1)
  rw [h]
  ring

theorem interiorTriples_pos (mxu mxv myu myv us vs r origin w : ℤ)
    (h1 : us = w * myu + mxu) (h2 : vs = w * myv + mxv) :
    ∀ t ∈ interiorTriples mxu mxv myu myv us vs r origin,
      t.1 = origin + w * t.2.2 + t.2.1 := by
  intro t ht
  obtain ⟨p, _, rfl⟩ := List.mem_map.mp ht
  show cellIndex origin us vs p.1 p.2 =
    origin + w * (myu * p.1 + myv * p.2) + (mxu * p.1 + mxv * p.2)
  unfold cellIndex
  rw [h1, h2]
  ring

theorem updateTriples_pos (r w origin : ℤ) :
    ∀ t ∈ updateTriples r w origin, t.1 = origin + w * t.2.2 + t.2.1 := by
  intro t ht
  simp only [updateTriples, List.mem_cons, List.mem_append, List.mem_flatMap,
    edgeDirs, octantParams, List.not_mem_nil, or_false] at ht
  rcases ht with rfl | ⟨d, hd, htd⟩ | ⟨p, hp, htp⟩
  · show origin = origin + w * 0 + 0
    ring
  · rcases hd with rfl | rfl | rfl | rfl | rfl | rfl | rfl | rfl
    · exact edgeTriples_pos r origin 1 0 1 w (by ring) t htd
    · exact edgeTriples_pos r origin 1 1 (w + 1) w (by ring) t htd
    · exact edgeTriples_pos r origin 0 1 w w (by ring) t htd
    · exact edgeTriples_pos r origin (-1) 1 (w - 1) w (by ring) t htd
    · exact edgeTriples_pos r origin (-1) 0 (-1) w (by ring) t htd
    · exact edgeTriples_pos r origin (-1) (-1) (-w - 1) w (by ring) t htd
    · exact edgeTriples_pos r origin 0 (-1) (-w) w (by ring) t htd
    · exact edgeTriples_pos r origin 1 (-1) (-w + 1) w (by ring) t htd
  · rcases hp with rfl | rfl | rfl | rfl | rfl | rfl | rfl | rfl
    · exact interiorTriples_pos 1 0 0 1 1 w r origin w (by ring) (by ring) t htp
    · exact interiorTriples_pos 0 1 1 0 w 1 r origin w (by ring) (by ring) t htp
    · exact interiorTriples_pos 0 (-1) 1 0 w (-1) r origin w (by ring) (by ring) t htp
    · exact interiorTriples_pos (-1) 0 0 1 (-1) w r origin w (by ring) (by ring) t htp
    · exact interiorTriples_pos (-1) 0 0 (-1) (-1) (-w) r origin w (by ring) (by ring) t htp
    · exact interiorTriples_pos 0 (-1) (-1) 0 (-w) (-1) r origin w (by ring) (by ring) t htp
    · exact interiorTriples_pos 0 1 (-1) 0 (-w) 1 r origin w (by ring) (by ring) t htp
    · exact interiorTriples_pos 1 0 0 (-1) 1 (-w) r origin w (by ring) (by ring) t htp

/-! ## Counting the visited cells -/

theorem tri_two (n : ℕ) : 2 * tri n = n * (n + 1) := by
  induction n with
  | zero => rfl
  | succ n ih =>
    have h2 : (n + 1) * (n + 1 + 1) = n * (n + 1) + 2 * (n + 1) := by ring
    show 2 * (tri n + (n + 1)) = (n + 1) * (n + 1 + 1)
    omega

theorem uvCols_length : ∀ (n j : ℕ), (uvCols j n).length + tri j = tri (j + n) := by
  intro n
  induction n with
  | zero => intro j; simp [uvCols]
  | succ n ih =>
    intro j
    have huv : uvCols j (n + 1) =
        ((List.range (j + 1)).map fun (i : ℕ) => ((j : ℤ) + 2, (i : ℤ) + 1)) ++
          uvCols (j + 1) n := by
      unfold uvCols
      rw [List.range'_succ, List.flatMap_cons]
    rw [huv, List.length_append, List.length_map, List.length_range]
    have h1 := ih (j + 1)
    have h2 : tri (j + 1) = tri j + (j + 1) := rfl
    have h3 : tri (j + (n + 1)) = tri (j + 1 + n) := by
      rw [show j + (n + 1) = j + 1 + n from by omega]
    omega

theorem uvList_length (r : ℤ) : (uvList r).length = tri (r - 1).toNat := by
  have h := uvCols_length (r - 1).toNat 0
  have h0 : tri 0 = 0 := rfl
  simp only [uvList, Nat.zero_add] at h ⊢
  omega

theorem updateCells_length (r : ℤ) (hr : 0 ≤ r) :
    (updateCells r).length = (2 * r + 1).toNat ^ 2 := by
  have hc : (updateCells r).length = 1 + 8 * r.toNat + 8 * (uvList r).length := by
    simp only [updateCells, updateCellBlocks, List.flatten, List.length_append,
      List.length_cons, List.length_nil, edgeCells, octantCells, List.length_map,
      List.length_range]
    ring
  rw [hc, uvList_length]
  rcases Nat.eq_zero_or_pos r.toNat with hm | hm
  · rw [show (r - 1).toNat = 0 from by omega, show (2 * r + 1).toNat = 1 from by omega]
    simp [tri, hm]
  · obtain ⟨k, hk⟩ : ∃ k, r.toNat = k + 1 := ⟨r.toNat - 1, by omega⟩
    rw [show (r - 1).toNat = k from by omega,
      show (2 * r + 1).toNat = 2 * k + 3 from by omega, hk]
    have h3 := tri_two k
    have h4 : (2 * k + 3) ^ 2 = 4 * (k * (k + 1)) + 8 * (k + 1) + 1 := by ring
    omega

/-! ## Positions, arguments and distinctness of the whole trace -/

theorem update_pos {T : Type} (fov : Fov T) (f : UpdateFn T) (hwf : fov.WF) :
    ∀ e ∈ (fov.update f).2, e.pos = fov.ixOrigin + fov.width * e.y + e.x := by
  intro e he
  have h2 : (e.pos, e.x, e.y) ∈ updateTriples fov.radius fov.width fov.ixOrigin := by
    rw [← update_triples fov f hwf]
    exact List.mem_map_of_mem _ he
  exact updateTriples_pos fov.radius fov.width fov.ixOrigin _ h2

theorem update_args {T : Type} (fov : Fov T) (f : UpdateFn T) (hwf : fov.WF) :
    (fov.update f).2.map (fun e => (e.x, e.y)) = updateCells fov.radius := by
  have h2 : (fun (e : Event T) => (e.x, e.y)) =
      (fun (t : ℤ × ℤ × ℤ) => t.2) ∘ (fun e => (e.pos, e.x, e.y)) := rfl
  rw [h2, ← List.map_map, update_triples fov f hwf, updateTriples_cells]

theorem update_pos_nodup {T : Type} (fov : Fov T) (f : UpdateFn T) (hwf : fov.WF) :
    ((fov.update f).2.map fun e => e.pos).Nodup := by
  obtain ⟨hr, hw, ho⟩ := hwf
  have h2 : (fun (e : Event T) => e.pos) =
      (fun (t : ℤ × ℤ × ℤ) => t.1) ∘ (fun e => (e.pos, e.x, e.y)) := rfl
  rw [h2, ← List.map_map, update_triples fov f ⟨hr, hw, ho⟩]
  have h3 : (updateTriples fov.radius fov.width fov.ixOrigin).map (fun t => t.1) =
      ((updateTriples fov.radius fov.width fov.ixOrigin).map fun t => t.2).map
        (fun c => fov.ixOrigin + fov.width * c.2 + c.1) := by
    rw [List.map_map]
    refine List.map_congr_left fun t ht => ?_
    rw [updateTriples_pos fov.radius fov.width fov.ixOrigin t ht]
    rfl
  rw [h3, updateTriples_cells]
  refine List.Nodup.map_on ?_ (updateCells_nodup fov.radius)
  intro c1 hc1 c2 hc2 heq
  obtain ⟨b1, b2, b3, b4⟩ := updateCells_bounds fov.radius hr c1 hc1
  obtain ⟨b5, b6, b7, b8⟩ := updateCells_bounds fov.radius hr c2 hc2
  have h4 : fov.width * c1.2 + c1.1 = fov.width * c2.2 + c2.1 := by linarith
  obtain ⟨e1, e2⟩ := flat_index_inj fov.radius fov.width c1.1 c1.2 c2.1 c2.2 hw
    b1 b2 b3 b4 b5 b6 b7 b8 h4
  exact Prod.ext e1 e2

/-- Since the trace writes each flat position at most once, the final
grid holds each event's value at that event's position. -/
theorem update_value_at {T : Type} (fov : Fov T) (f : UpdateFn T) (hwf : fov.WF)
    (e : Event T) (he : e ∈ (fov.update f).2) :
    (fov.update f).1.data e.pos = e.value := by
  rw [update_data]
  exact applyEvents_nodup _ _ (update_pos_nodup fov f hwf) e he

/-- The update function of the coordinate-identity test
(`fov.update(|x, y, _| (x, y))` in `coordinate_flag`). -/
def coordFn : UpdateFn (ℤ × ℤ) := fun x y _ => (x, y)

/-- C3: after one update with the function returning its own world
coordinates, `at(x, y) = (x, y)` on every cell of the square of radius
`radius`; moreover the update calls the function exactly once per grid
cell: the list of visited coordinates has no duplicates, contains
exactly the cells of the square, and has length `(2·radius + 1)²`. -/
theorem c3_coordinate_identity (fov : Fov (ℤ × ℤ)) (hwf : fov.WF) :
    (∀ x y : ℤ, -fov.radius ≤ x → x ≤ fov.radius → -fov.radius ≤ y → y ≤ fov.radius →
      (fov.update coordFn).1.at' x y = some (x, y)) ∧
    ((fov.update coordFn).2.map fun e => (e.x, e.y)).Nodup ∧
    (∀ c : ℤ × ℤ, c ∈ (fov.update coordFn).2.map (fun e => (e.x, e.y)) ↔
      -fov.radius ≤ c.1 ∧ c.1 ≤ fov.radius ∧ -fov.radius ≤ c.2 ∧ c.2 ≤ fov.radius) ∧
    (fov.update coordFn).2.length = (2 * fov.radius + 1).toNat ^ 2 := by
  obtain ⟨hr, hw, ho⟩ := hwf
  have hwf : fov.WF := ⟨hr, hw, ho⟩
  have hargs := update_args fov coordFn hwf
  refine ⟨?_, ?_, ?_, ?_⟩
  · intro x y hx1 hx2 hy1 hy2
    have hcell : (x, y) ∈ (fov.update coordFn).2.map (fun e => (e.x, e.y)) := by
      rw [hargs]
      exact updateCells_cover fov.radius x y hx1 hx2 hy1 hy2
    obtain ⟨e, he, heq⟩ := List.mem_map.mp hcell
    have hex : e.x = x := congrArg Prod.fst heq
    have hey : e.y = y := congrArg Prod.snd heq
    have hpos := update_pos fov coordFn hwf e he
    have hval := update_value_at fov coordFn hwf e he
    have hv : e.value = (x, y) := by
      rw [update_values fov coordFn e he]
      rw [show coordFn e.x e.y e.influxes = (e.x, e.y) from rfl, hex, hey]
    simp only [Fov.at']
    rw [update_ixOrigin, update_width]
    have hsum : fov.ixOrigin + fov.width * y + x =
        fov.width * (fov.radius + y) + (fov.radius + x) := by
      rw [ho, hw]
      ring
    have hix : 0 ≤ fov.ixOrigin + fov.width * y + x ∧
        fov.ixOrigin + fov.width * y + x < fov.width * fov.width := by
      constructor
      · have h5 := mul_nonneg (show (0 : ℤ) ≤ fov.width from by omega)
          (show (0 : ℤ) ≤ fov.radius + y from by omega)
        omega
      · have h5 : fov.width * (fov.radius + y) ≤ fov.width * (2 * fov.radius) :=
          mul_le_mul_of_nonneg_left (by omega) (by omega)
        have h6 : fov.width * fov.width = fov.width * (2 * fov.radius) + fov.width := by
          rw [hw]
          ring
        omega
    rw [if_pos hix, show fov.ixOrigin + fov.width * y + x = e.pos from by
      rw [hpos, hex, hey], hval, hv]
  · rw [hargs]
    exact updateCells_nodup fov.radius
  · intro c
    rw [hargs]
    constructor
    · exact fun hc => updateCells_bounds fov.radius hr c hc
    · rintro ⟨b1, b2, b3, b4⟩
      have h := updateCells_cover fov.radius c.1 c.2 b1 b2 b3 b4
      simpa using h
  · rw [show (fov.update coordFn).2.length =
      ((fov.update coordFn).2.map fun e => (e.x, e.y)).length from
        (List.length_map ..).symm, hargs, updateCells_length fov.radius hr]

/-- Witness for `c3_coordinate_identity`: a radius-1 field. -/
theorem c3_coordinate_identity_witness :
    (Fov.WF (⟨⟨1, []⟩, 1, 3, 4, fun _ => ((0 : ℤ), (0 : ℤ))⟩ : Fov (ℤ × ℤ))) ∧
    ((⟨⟨1, []⟩, 1, 3, 4, fun _ => ((0 : ℤ), (0 : ℤ))⟩ : Fov (ℤ × ℤ)).update
      coordFn).1.at' 1 0 = some (1, 0) := by
  have hwf : Fov.WF (⟨⟨1, []⟩, 1, 3, 4, fun _ => ((0 : ℤ), (0 : ℤ))⟩ : Fov (ℤ × ℤ)) := by
    refine ⟨by norm_num, by norm_num, by norm_num⟩
  exact ⟨hwf, (c3_coordinate_identity _ hwf).1 1 0 (by norm_num) (by norm_num)
    (by norm_num) (by norm_num)⟩

/-! ## The interior calls of a full update -/

/-- For every octant and every interior cell, the full update's trace
contains the `calc_interior` call for that cell, with the grid at call
time attached. -/
theorem update_interior_call {T : Type} (fov : Fov T) (f : UpdateFn T) (hwf : fov.WF)
    (h2 : 2 ≤ fov.radius) (p : ℤ × ℤ × ℤ × ℤ × ℤ × ℤ)
    (hp : p ∈ octantParams fov.width) (a i : ℕ)
    (ha : a < (fov.radius - 1).toNat) (hi : i ≤ a) :
    ∃ q ∈ traceWithStates fov.data (fov.update f).2,
      q.2.pos = cellIndex fov.ixOrigin p.2.2.2.2.1 p.2.2.2.2.2 ((a : ℤ) + 2) ((i : ℤ) + 1) ∧
      q.2.x = (cellWorld p.1 p.2.1 p.2.2.1 p.2.2.2.1 ((a : ℤ) + 2) ((i : ℤ) + 1)).1 ∧
      q.2.y = (cellWorld p.1 p.2.1 p.2.2.1 p.2.2.2.1 ((a : ℤ) + 2) ((i : ℤ) + 1)).2 ∧
      q.2.influxes =
        [⟨fov.fluxField.fluxLut.getD (tri a + i) 0, -p.1, -p.2.2.1,
            q.1 (cellIndex fov.ixOrigin p.2.2.2.2.1 p.2.2.2.2.2 ((a : ℤ) + 1) (i : ℤ))⟩,
         ⟨1 - fov.fluxField.fluxLut.getD (tri a + i) 0, -(p.1 + p.2.1),
            -(p.2.2.1 + p.2.2.2.1),
            q.1 (cellIndex fov.ixOrigin p.2.2.2.2.1 p.2.2.2.2.2 ((a : ℤ) + 1) ((i : ℤ) + 1))⟩] := by
  have h0 : (0 : ℤ) < fov.radius := by omega
  have h1 : (1 : ℤ) < fov.radius := by omega
  simp only [Fov.update, if_pos h0, if_pos h1]
  obtain ⟨q, hq, hprops⟩ := octantFold_cell f fov.radius fov.ixOrigin
    fov.fluxField.fluxLut (octantParams fov.width)
    (edgeFold f fov.radius fov.ixOrigin (edgeDirs fov.width)
      (write fov.data fov.ixOrigin (f 0 0 []))).1 p hp a i ha hi
  refine ⟨q, ?_, hprops⟩
  refine tws_mem_cons _ _ _ _ q rfl ?_
  exact tws_mem_right _ _ _ _ q (edgeFold_grid ..) hq

/-- C9: for every interior cell `(u, v) = (a + 2, i + 1)` of every
octant processed during `update`, the direction fields and the values
of the two influxes are crossed: the influx whose `(dx, dy)` points at
the stay neighbour `(u-1, v)` carries the LUT weight `w` for the cell
but holds the value stored (at call time) at the flat index of the jump
neighbour `(u-1, v-1)`, while the influx whose `(dx, dy)` points at the
jump neighbour `(u-1, v-1)` carries `1 - w` but holds the value stored
at the flat index of the stay neighbour `(u-1, v)`.  Here `q.1` is the
grid as it stands when the call is made. -/
theorem c9_interior_influxes_crossed {T : Type} (fov : Fov T) (f : UpdateFn T)
    (hwf : fov.WF) (h2 : 2 ≤ fov.radius) (p : ℤ × ℤ × ℤ × ℤ × ℤ × ℤ)
    (hp : p ∈ octantParams fov.width) (a i : ℕ)
    (ha : a < (fov.radius - 1).toNat) (hi : i ≤ a) :
    ∃ q ∈ traceWithStates fov.data (fov.update f).2,
      (q.2.x, q.2.y) = cellWorld p.1 p.2.1 p.2.2.1 p.2.2.2.1 ((a : ℤ) + 2) ((i : ℤ) + 1) ∧
      q.2.influxes =
        [⟨fov.fluxField.fluxLut.getD (tri a + i) 0, -p.1, -p.2.2.1,
            q.1 (cellIndex fov.ixOrigin p.2.2.2.2.1 p.2.2.2.2.2 ((a : ℤ) + 1) (i : ℤ))⟩,
         ⟨1 - fov.fluxField.fluxLut.getD (tri a + i) 0, -(p.1 + p.2.1),
            -(p.2.2.1 + p.2.2.2.1),
            q.1 (cellIndex fov.ixOrigin p.2.2.2.2.1 p.2.2.2.2.2 ((a : ℤ) + 1) ((i : ℤ) + 1))⟩] ∧
      (q.2.x + (-p.1), q.2.y + (-p.2.2.1)) =
        cellWorld p.1 p.2.1 p.2.2.1 p.2.2.2.1 ((a : ℤ) + 1) ((i : ℤ) + 1) ∧
      (q.2.x + (-(p.1 + p.2.1)), q.2.y + (-(p.2.2.1 + p.2.2.2.1))) =
        cellWorld p.1 p.2.1 p.2.2.1 p.2.2.2.1 ((a : ℤ) + 1) (i : ℤ) := by
  obtain ⟨q, hq, hpos, hx, hy, hinfl⟩ :=
    update_interior_call fov f hwf h2 p hp a i ha hi
  refine ⟨q, hq, by rw [hx, hy], hinfl, ?_, ?_⟩
  · rw [hx, hy]
    unfold cellWorld
    rw [Prod.mk.injEq]
    exact ⟨by ring, by ring⟩
  · rw [hx, hy]
    unfold cellWorld
    rw [Prod.mk.injEq]
    exact ⟨by ring, by ring⟩

/-- Witness for `c9_interior_influxes_crossed`: radius 2, first octant,
cell `(u, v) = (2, 1)`. -/
theorem c9_interior_influxes_crossed_witness :
    ∃ q ∈ traceWithStates
        (Fov.data (⟨⟨2, [(1 : ℚ)/3]⟩, 2, 5, 12, fun _ => ((0 : ℤ), (0 : ℤ))⟩ : Fov (ℤ × ℤ)))
        (((⟨⟨2, [(1 : ℚ)/3]⟩, 2, 5, 12, fun _ => ((0 : ℤ), (0 : ℤ))⟩ : Fov (ℤ × ℤ)).update
          coordFn).2),
      (q.2.x, q.2.y) = cellWorld 1 0 0 1 (((0 : ℕ) : ℤ) + 2) (((0 : ℕ) : ℤ) + 1) ∧
      q.2.influxes =
        [⟨[(1 : ℚ)/3].getD (tri 0 + 0) 0, -1, -0,
            q.1 (cellIndex 12 1 5 (((0 : ℕ) : ℤ) + 1) ((0 : ℕ) : ℤ))⟩,
         ⟨1 - [(1 : ℚ)/3].getD (tri 0 + 0) 0, -(1 + 0), -(0 + 1),
            q.1 (cellIndex 12 1 5 (((0 : ℕ) : ℤ) + 1) (((0 : ℕ) : ℤ) + 1))⟩] ∧
      (q.2.x + -1, q.2.y + -0) = cellWorld 1 0 0 1 (((0 : ℕ) : ℤ) + 1) (((0 : ℕ) : ℤ) + 1) ∧
      (q.2.x + -(1 + 0), q.2.y + -(0 + 1)) =
        cellWorld 1 0 0 1 (((0 : ℕ) : ℤ) + 1) ((0 : ℕ) : ℤ) :=
  c9_interior_influxes_crossed
    (⟨⟨2, [(1 : ℚ)/3]⟩, 2, 5, 12, fun _ => ((0 : ℤ), (0 : ℤ))⟩ : Fov (ℤ × ℤ)) coordFn
    ⟨by norm_num, by norm_num, by norm_num⟩ (by norm_num) (1, 0, 0, 1, 1, 5)
    (by simp [octantParams]) 0 0 (by decide) (le_refl 0)

/-! ## Claim C1: the weight/value pairing of the interior influxes -/

/-- A radius-2 field of vision over a flux field whose single LUT entry
is `1/3`, with the value type `ℤ × ℤ`; its interior pass makes exactly
one call per octant, for octant-local cell `(u, v) = (2, 1)`. -/
def fovC1 : Fov (ℤ × ℤ) :=
  ⟨⟨2, [(1 : ℚ)/3]⟩, 2, 5, 12, fun _ => (0, 0)⟩

/-- Counterexample to C1 as stated.  Updating `fovC1` with the
coordinate function, the call for the first octant's interior cell
`(u, v) = (2, 1)` (the 18th call of the trace, world cell `(2, 1)`,
whose stay neighbour `(1, 1)` holds `(1, 1)` and whose jump neighbour
`(1, 0)` holds `(1, 0)`) passes the influx list
`[{weight w, dir (-1, 0), value (1, 0)}, {weight 1-w, dir (-1, -1), value (1, 1)}]`
with `w = 1/3` the LUT entry for the cell: the influx carrying weight
`w` holds the jump neighbour's value `(1, 0)`, not the stay neighbour's
value `(1, 1)` as the claim demands — no influx of the call has weight
`w` together with the stay neighbour's value. -/
theorem c1_counterexample :
    ((fovC1.update coordFn).2.getD 17 ⟨0, 0, 0, [], (0, 0)⟩).x = 2 ∧
    ((fovC1.update coordFn).2.getD 17 ⟨0, 0, 0, [], (0, 0)⟩).y = 1 ∧
    ((fovC1.update coordFn).2.getD 17 ⟨0, 0, 0, [], (0, 0)⟩).influxes =
      [⟨(1 : ℚ)/3, -1, 0, ((1 : ℤ), (0 : ℤ))⟩,
       ⟨1 - (1 : ℚ)/3, -1, -1, ((1 : ℤ), (1 : ℤ))⟩] ∧
    ¬ ∃ infl ∈ ((fovC1.update coordFn).2.getD 17 ⟨0, 0, 0, [], (0, 0)⟩).influxes,
        infl.weight = (1 : ℚ)/3 ∧ infl.value = ((1 : ℤ), (1 : ℤ)) := by
  have hinfl : ((fovC1.update coordFn).2.getD 17 ⟨0, 0, 0, [], (0, 0)⟩).influxes =
      [⟨(1 : ℚ)/3, -1, 0, ((1 : ℤ), (0 : ℤ))⟩,
       ⟨1 - (1 : ℚ)/3, -1, -1, ((1 : ℤ), (1 : ℤ))⟩] := rfl
  refine ⟨rfl, rfl, hinfl, ?_⟩
  rw [hinfl]
  rintro ⟨infl, hmem, hw, hv⟩
  rcases List.mem_cons.mp hmem with rfl | hmem'
  · exact absurd hv (by decide)
  · rcases List.mem_cons.mp hmem' with rfl | hmem''
    · revert hw
      show ¬ (1 - (1 : ℚ)/3 = (1 : ℚ)/3)
      norm_num
    · cases hmem''

/-- C1 (amended): for every interior cell `(u, v) = (a + 2, i + 1)` of
every octant, `update` calls the caller's function with exactly two
influxes, one of weight `w` (the LUT entry for the cell) whose value is
the value stored — at the moment of the call — at the flat index of the
**jump** neighbour `(u-1, v-1)`, and one of weight `1 - w` whose value
is the value stored at the flat index of the **stay** neighbour
`(u-1, v)` (both neighbours have been written earlier in the same
update pass; `q.1` is the grid at call time). -/
theorem c1_interior_weights {T : Type} (fov : Fov T) (f : UpdateFn T)
    (hwf : fov.WF) (h2 : 2 ≤ fov.radius) (p : ℤ × ℤ × ℤ × ℤ × ℤ × ℤ)
    (hp : p ∈ octantParams fov.width) (a i : ℕ)
    (ha : a < (fov.radius - 1).toNat) (hi : i ≤ a) :
    ∃ q ∈ traceWithStates fov.data (fov.update f).2, ∃ vjump vstay : T,
      (q.2.x, q.2.y) = cellWorld p.1 p.2.1 p.2.2.1 p.2.2.2.1 ((a : ℤ) + 2) ((i : ℤ) + 1) ∧
      q.2.influxes =
        [⟨fov.fluxField.fluxLut.getD (tri a + i) 0, -p.1, -p.2.2.1, vjump⟩,
         ⟨1 - fov.fluxField.fluxLut.getD (tri a + i) 0, -(p.1 + p.2.1),
            -(p.2.2.1 + p.2.2.2.1), vstay⟩] ∧
      vjump = q.1 (cellIndex fov.ixOrigin p.2.2.2.2.1 p.2.2.2.2.2 ((a : ℤ) + 1) (i : ℤ)) ∧
      vstay = q.1 (cellIndex fov.ixOrigin p.2.2.2.2.1 p.2.2.2.2.2 ((a : ℤ) + 1) ((i : ℤ) + 1)) := by
  obtain ⟨q, hq, hpos, hx, hy, hinfl⟩ :=
    update_interior_call fov f hwf h2 p hp a i ha hi
  exact ⟨q, hq, _, _, by rw [hx, hy], hinfl, rfl, rfl⟩

/-- Witness for `c1_interior_weights`: radius 2, first octant, cell
`(2, 1)`. -/
theorem c1_interior_weights_witness :
    ∃ q ∈ traceWithStates fovC1.data ((fovC1.update coordFn).2), ∃ vjump vstay : ℤ × ℤ,
      (q.2.x, q.2.y) = cellWorld 1 0 0 1 (((0 : ℕ) : ℤ) + 2) (((0 : ℕ) : ℤ) + 1) ∧
      q.2.influxes =
        [⟨[(1 : ℚ)/3].getD (tri 0 + 0) 0, -1, -0, vjump⟩,
         ⟨1 - [(1 : ℚ)/3].getD (tri 0 + 0) 0, -(1 + 0), -(0 + 1), vstay⟩] ∧
      vjump = q.1 (cellIndex 12 1 5 (((0 : ℕ) : ℤ) + 1) ((0 : ℕ) : ℤ)) ∧
      vstay = q.1 (cellIndex 12 1 5 (((0 : ℕ) : ℤ) + 1) (((0 : ℕ) : ℤ) + 1)) :=
  c1_interior_weights fovC1 coordFn ⟨by decide, by decide, by decide⟩
    (by decide) (1, 0, 0, 1, 1, 5) (by decide) 0 0 (by decide) (le_refl 0)

/-! ### C2: the path-count field of test `big_connection_flag` -/

/-- The update function of test `big_connection_flag`: `1` at the origin,
otherwise the sum of the influx values (the weights are ignored). -/
def pathCountFn : UpdateFn ℕ :=
  fun x y infl => if x = 0 ∧ y = 0 then 1 else (infl.map fun i => i.value).sum

/-- The radius-5 `Fov` of test `big_connection_flag`.  Because
`pathCountFn` ignores the influx weights, the LUT of the flux field is
irrelevant and is kept as a parameter. -/
def fovC2 (lut : List ℚ) : Fov ℕ := ⟨⟨5, lut⟩, 5, 11, 60, fun _ => 0⟩

/-- The path-count grid after one update, in flat-index order (this is the
fixture of test `big_connection_flag`). -/
def pathCounts : List ℕ :=
  [1, 5, 10, 10, 5, 1, 5, 10, 10, 5, 1,
   5, 1, 4, 6, 4, 1, 4, 6, 4, 1, 5,
   10, 4, 1, 3, 3, 1, 3, 3, 1, 4, 10,
   10, 6, 3, 1, 2, 1, 2, 1, 3, 6, 10,
   5, 4, 3, 2, 1, 1, 1, 2, 3, 4, 5,
   1, 1, 1, 1, 1, 1, 1, 1, 1, 1, 1,
   5, 4, 3, 2, 1, 1, 1, 2, 3, 4, 5,
   10, 6, 3, 1, 2, 1, 2, 1, 3, 6, 10,
   10, 4, 1, 3, 3, 1, 3, 3, 1, 4, 10,
   5, 1, 4, 6, 4, 1, 4, 6, 4, 1, 5,
   1, 5, 10, 10, 5, 1, 5, 10, 10, 5, 1]

/-- The `(flat index, value)` pair of every call made by the update, in
call order. -/
def c2pairs : List (ℤ × ℕ) :=
  [(60, 1), (61, 1), (62, 1), (63, 1), (64, 1), (65, 1),
   (72, 1), (84, 1), (96, 1), (108, 1), (120, 1), (71, 1),
   (82, 1), (93, 1), (104, 1), (115, 1), (70, 1), (80, 1),
   (90, 1), (100, 1), (110, 1), (59, 1), (58, 1), (57, 1),
   (56, 1), (55, 1), (48, 1), (36, 1), (24, 1), (12, 1),
   (0, 1), (49, 1), (38, 1), (27, 1), (16, 1), (5, 1),
   (50, 1), (40, 1), (30, 1), (20, 1), (10, 1), (73, 2),
   (74, 3), (85, 3), (75, 4), (86, 6), (97, 4), (76, 5),
   (87, 10), (98, 10), (109, 5), (83, 2), (94, 3), (95, 3),
   (105, 4), (106, 6), (107, 4), (116, 5), (117, 10), (118, 10),
   (119, 5), (81, 2), (92, 3), (91, 3), (103, 4), (102, 6),
   (101, 4), (114, 5), (113, 10), (112, 10), (111, 5), (69, 2),
   (68, 3), (79, 3), (67, 4), (78, 6), (89, 4), (66, 5),
   (77, 10), (88, 10), (99, 5), (47, 2), (46, 3), (35, 3),
   (45, 4), (34, 6), (23, 4), (44, 5), (33, 10), (22, 10),
   (11, 5), (37, 2), (26, 3), (25, 3), (15, 4), (14, 6),
   (13, 4), (4, 5), (3, 10), (2, 10), (1, 5), (39, 2),
   (28, 3), (29, 3), (17, 4), (18, 6), (19, 4), (6, 5),
   (7, 10), (8, 10), (9, 5), (51, 2), (52, 3), (41, 3),
   (53, 4), (42, 6), (31, 4), (54, 5), (43, 10), (32, 10),
   (21, 5)]

set_option maxRecDepth 100000 in
set_option maxHeartbeats 0 in
theorem fovC2_pairs (lut : List ℚ) :
    ((fovC2 lut).update pathCountFn).2.map (fun e => (e.pos, e.value)) =
      c2pairs := by with_unfolding_all rfl

theorem c2pairs_mem : ∀ i : ℕ, i < 121 → (((i : ℕ) : ℤ), pathCounts.getD i 0) ∈ c2pairs := by
  decide

theorem fovC2_data (lut : List ℚ) (i : ℕ) (h : i < 121) :
    ((fovC2 lut).update pathCountFn).1.data (i : ℤ) = pathCounts.getD i 0 := by
  have hmem : ((i : ℤ), pathCounts.getD i 0) ∈ c2pairs := c2pairs_mem i h
  rw [← fovC2_pairs lut] at hmem
  rcases List.mem_map.mp hmem with ⟨e, he, hpe⟩
  have h1 : e.pos = (i : ℤ) := congrArg Prod.fst hpe
  have h2 : e.value = pathCounts.getD i 0 := congrArg Prod.snd hpe
  rw [← h1, ← h2]
  refine update_value_at _ _ ⟨?_, ?_, ?_⟩ e he
  · show (0 : ℤ) ≤ 5
    norm_num
  · show (11 : ℤ) = 2 * 5 + 1
    norm_num
  · show (60 : ℤ) = 5 * (11 + 1)
    norm_num

theorem fovC2_at (lut : List ℚ) (x y : ℤ) (hx : |x| ≤ 5) (hy : |y| ≤ 5) :
    ((fovC2 lut).update pathCountFn).1.at' x y =
      some (pathCounts.getD (60 + 11 * y + x).toNat 0) := by
  rw [abs_le] at hx hy
  unfold Fov.at'
  rw [update_width, update_ixOrigin]
  have hio : (fovC2 lut).ixOrigin = 60 := rfl
  have hwd : (fovC2 lut).width = 11 := rfl
  rw [hio, hwd]
  rw [if_pos (by constructor <;> omega)]
  have hi : (((60 + 11 * y + x).toNat : ℕ) : ℤ) = 60 + 11 * y + x := by omega
  have hd := fovC2_data lut (60 + 11 * y + x).toNat (by omega)
  rw [hi] at hd
  exact congrArg some hd

theorem pathCounts_sym : ∀ a < 11, ∀ b < 11,
    pathCounts.getD (11 * a + b) 0 = pathCounts.getD (11 * b + a) 0 ∧
    pathCounts.getD (11 * b + (10 - a)) 0 = pathCounts.getD (11 * b + a) 0 ∧
    pathCounts.getD (11 * (10 - b) + a) 0 = pathCounts.getD (11 * b + a) 0 := by
  decide

/-- C2 (original, FALSE): in the radius-5 path-count field the cell
`(1, 0)` holds `1`, not `5` as the specification says (the value `5`
appears further out, e.g. at `(5, 4)`). -/
theorem c2_counterexample :
    ((fovC2 []).update pathCountFn).1.at' 1 0 ≠ some 5 := by
  rw [fovC2_at [] 1 0 (by decide) (by decide)]
  decide

/-- C2 (amended): for the radius-5 `Fov` updated once with the path-count
function (over any LUT), the field is symmetric under the dihedral group
of the square — generated by transposition and the two axis reflections —
the four cells `(±1, 0)`, `(0, ±1)` each hold `1` (not `5`), and the
corner `(5, 5)` holds `1`. -/
theorem c2_path_count_symmetry (lut : List ℚ) :
    (∀ x y : ℤ, |x| ≤ 5 → |y| ≤ 5 →
        ((fovC2 lut).update pathCountFn).1.at' y x =
          ((fovC2 lut).update pathCountFn).1.at' x y ∧
        ((fovC2 lut).update pathCountFn).1.at' (-x) y =
          ((fovC2 lut).update pathCountFn).1.at' x y ∧
        ((fovC2 lut).update pathCountFn).1.at' x (-y) =
          ((fovC2 lut).update pathCountFn).1.at' x y) ∧
    ((fovC2 lut).update pathCountFn).1.at' 1 0 = some 1 ∧
    ((fovC2 lut).update pathCountFn).1.at' 0 1 = some 1 ∧
    ((fovC2 lut).update pathCountFn).1.at' (-1) 0 = some 1 ∧
    ((fovC2 lut).update pathCountFn).1.at' 0 (-1) = some 1 ∧
    ((fovC2 lut).update pathCountFn).1.at' 5 5 = some 1 := by
  refine ⟨?_, ?_, ?_, ?_, ?_, ?_⟩
  · intro x y hx hy
    have hx' := abs_le.mp hx
    have hy' := abs_le.mp hy
    have hnx : |(-x)| ≤ 5 := by rw [abs_neg]; exact hx
    have hny : |(-y)| ≤ 5 := by rw [abs_neg]; exact hy
    rw [fovC2_at lut x y hx hy, fovC2_at lut y x hy hx,
        fovC2_at lut (-x) y hnx hy, fovC2_at lut x (-y) hx hny]
    have hs := pathCounts_sym (x + 5).toNat (by omega) (y + 5).toNat (by omega)
    have e0 : (60 + 11 * y + x).toNat = 11 * (y + 5).toNat + (x + 5).toNat := by omega
    have e1 : (60 + 11 * x + y).toNat = 11 * (x + 5).toNat + (y + 5).toNat := by omega
    have e2 : (60 + 11 * y + -x).toNat =
        11 * (y + 5).toNat + (10 - (x + 5).toNat) := by omega
    have e3 : (60 + 11 * -y + x).toNat =
        11 * (10 - (y + 5).toNat) + (x + 5).toNat := by omega
    rw [e0, e1, e2, e3]
    exact ⟨congrArg some hs.1, congrArg some hs.2.1, congrArg some hs.2.2⟩
  · rw [fovC2_at lut 1 0 (by decide) (by decide)]; decide
  · rw [fovC2_at lut 0 1 (by decide) (by decide)]; decide
  · rw [fovC2_at lut (-1) 0 (by decide) (by decide)]; decide
  · rw [fovC2_at lut 0 (-1) (by decide) (by decide)]; decide
  · rw [fovC2_at lut 5 5 (by decide) (by decide)]; decide

theorem c2_path_count_symmetry_witness :
    ((fovC2 []).update pathCountFn).1.at' 0 1 =
      ((fovC2 []).update pathCountFn).1.at' 1 0 :=
  ((c2_path_count_symmetry []).1 1 0 (by decide) (by decide)).1


/-! ### C4: the edge rays -/

theorem edgeEvents_eq_map {T : Type} (f : UpdateFn T) (radius origin dx dy stride : ℤ)
    (v0 : T) :
    edgeEvents f radius origin dx dy stride v0 =
      (List.range radius.toNat).map fun (i : ℕ) =>
        ⟨origin + stride * ((i : ℤ) + 1), dx * ((i : ℤ) + 1), dy * ((i : ℤ) + 1),
          [⟨1, dx, dy, rayValue f dx dy v0 i⟩], rayValue f dx dy v0 (i + 1)⟩ := by
  unfold edgeEvents edgeEventsFrom
  rw [List.range_eq_range']

/-- C4: for a well-formed `Fov` of radius `r ≥ 1`, the trace of `update`
starts with the origin call followed by the eight rays of `edgeDirs`,
each walked outward for exactly `r` steps; the step of index `i` of the
ray of unit direction `(dx, dy)` and stride `s` writes flat index
`origin + s·(i+1)`, calls `f(dx·(i+1), dy·(i+1), ·)` with exactly one
influx of weight exactly `1` whose direction fields are `(dx, dy)` and
whose value is the value computed at the previous step of the same ray
(`rayValue … i`, which is the origin value `f 0 0 []` when `i = 0`),
and stores the returned value `rayValue … (i+1)`. -/
theorem c4_edge_rays {T : Type} (fov : Fov T) (f : UpdateFn T) (hwf : Fov.WF fov)
    (hr : 1 ≤ fov.radius) :
    ∃ rest, (fov.update f).2 =
      ⟨fov.ixOrigin, 0, 0, [], f 0 0 []⟩ ::
        (((edgeDirs fov.width).flatMap fun d =>
            (List.range fov.radius.toNat).map fun (i : ℕ) =>
              ⟨fov.ixOrigin + d.2.2 * ((i : ℤ) + 1), d.1 * ((i : ℤ) + 1),
                d.2.1 * ((i : ℤ) + 1),
                [⟨1, d.1, d.2.1, rayValue f d.1 d.2.1 (f 0 0 []) i⟩],
                rayValue f d.1 d.2.1 (f 0 0 []) (i + 1)⟩) ++ rest) := by
  obtain ⟨h0, hw, ho⟩ := hwf
  have hstr : ∀ d ∈ edgeDirs fov.width, d.2.2 ≠ 0 := by
    intro d hd
    have hw3 : 3 ≤ fov.width := by omega
    simp only [edgeDirs, List.mem_cons, List.not_mem_nil, or_false] at hd
    rcases hd with rfl | rfl | rfl | rfl | rfl | rfl | rfl | rfl <;> dsimp only <;> omega
  have hseed : write fov.data fov.ixOrigin (f 0 0 []) fov.ixOrigin = f 0 0 [] :=
    write_self ..
  have hfold := edgeFold_trace f fov.radius fov.ixOrigin (edgeDirs fov.width)
    (write fov.data fov.ixOrigin (f 0 0 [])) hstr
  have hfn : (fun d : ℤ × ℤ × ℤ =>
        edgeEvents f fov.radius fov.ixOrigin d.1 d.2.1 d.2.2 (f 0 0 [])) =
      fun d : ℤ × ℤ × ℤ =>
        (List.range fov.radius.toNat).map fun (i : ℕ) =>
          ⟨fov.ixOrigin + d.2.2 * ((i : ℤ) + 1), d.1 * ((i : ℤ) + 1),
            d.2.1 * ((i : ℤ) + 1),
            [⟨1, d.1, d.2.1, rayValue f d.1 d.2.1 (f 0 0 []) i⟩],
            rayValue f d.1 d.2.1 (f 0 0 []) (i + 1)⟩ :=
    funext fun d => edgeEvents_eq_map f fov.radius fov.ixOrigin d.1 d.2.1 d.2.2 _
  simp only [Fov.update]
  rw [if_pos (by omega : (0 : ℤ) < fov.radius)]
  by_cases h2 : 1 < fov.radius
  · rw [if_pos h2]
    refine ⟨(octantFold f fov.radius fov.ixOrigin fov.fluxField.fluxLut
        (octantParams fov.width)
        (edgeFold f fov.radius fov.ixOrigin (edgeDirs fov.width)
          (write fov.data fov.ixOrigin (f 0 0 []))).1).2, ?_⟩
    show _ :: (_ ++ _) = _
    rw [hfold.1, hseed, hfn]
  · rw [if_neg h2]
    refine ⟨[], ?_⟩
    show _ :: _ = _
    rw [List.append_nil, hfold.1, hseed, hfn]

/-- A radius-1 field used to witness the edge-ray claim. -/
def fovC4 : Fov ℕ := ⟨⟨1, []⟩, 1, 3, 4, fun _ => 0⟩

theorem c4_edge_rays_witness :
    ∃ rest, (fovC4.update fun _ _ _ => 7).2 =
      ⟨fovC4.ixOrigin, 0, 0, [], 7⟩ ::
        (((edgeDirs fovC4.width).flatMap fun d =>
            (List.range fovC4.radius.toNat).map fun (i : ℕ) =>
              ⟨fovC4.ixOrigin + d.2.2 * ((i : ℤ) + 1), d.1 * ((i : ℤ) + 1),
                d.2.1 * ((i : ℤ) + 1),
                [⟨1, d.1, d.2.1, rayValue (fun _ _ _ => 7) d.1 d.2.1 7 i⟩],
                rayValue (fun _ _ _ => 7) d.1 d.2.1 7 (i + 1)⟩) ++ rest) :=
  c4_edge_rays fovC4 (fun _ _ _ => 7)
    ⟨by norm_num [fovC4], by norm_num [fovC4], by norm_num [fovC4]⟩
    (by norm_num [fovC4])

/-! ### C8: a radius-0 update -/

/-- C8: on a `Fov` of radius `0`, `update` makes exactly one call,
`f(0, 0, [])`, writes the returned value at the single cell
`ix_origin`, and neither the edge pass nor the interior pass
contributes any call: the trace is exactly the one origin event. -/
theorem c8_radius_zero_update {T : Type} (fov : Fov T) (f : UpdateFn T)
    (h : fov.radius = 0) :
    fov.update f =
      ({ fov with data := write fov.data fov.ixOrigin (f 0 0 []) },
        [⟨fov.ixOrigin, 0, 0, [], f 0 0 []⟩]) := by
  simp only [Fov.update, h]
  norm_num

/-- A radius-0 field used to witness the radius-0 update claim. -/
def fovC8 : Fov ℕ := ⟨⟨1, []⟩, 0, 1, 0, fun _ => 0⟩

theorem c8_radius_zero_update_witness :
    fovC8.update (fun _ _ _ => 7) =
      ({ fovC8 with data := write fovC8.data fovC8.ixOrigin 7 },
        [⟨fovC8.ixOrigin, 0, 0, [], 7⟩]) :=
  c8_radius_zero_update fovC8 (fun _ _ _ => 7) rfl

/-! ### C10: `Fov::at` performs no coordinate range check -/

/-- C10: `Fov::at` only checks the flat index, not the coordinates: on
every well-formed `Fov` of radius `r ≥ 1` the out-of-range coordinate
`(r + 1, 0)` is not rejected — its flat index wraps around to the
in-range cell `(-r, 1)`, whose stored value is silently returned. -/
theorem c10_at_no_range_check {T : Type} (fov : Fov T) (hwf : Fov.WF fov)
    (hr : 1 ≤ fov.radius) :
    fov.at' (fov.radius + 1) 0 = fov.at' (-fov.radius) 1 ∧
    (fov.at' (fov.radius + 1) 0).isSome = true := by
  obtain ⟨h0, hw, ho⟩ := hwf
  rw [hw] at ho
  have he : fov.ixOrigin + fov.width * 0 + (fov.radius + 1) =
      fov.ixOrigin + fov.width * 1 + -fov.radius := by
    rw [hw]
    ring
  have hb : 0 ≤ fov.ixOrigin + fov.width * 0 + (fov.radius + 1) ∧
      fov.ixOrigin + fov.width * 0 + (fov.radius + 1) <
        fov.width * fov.width := by
    rw [ho, hw]
    constructor <;> nlinarith
  constructor
  · simp only [Fov.at']
    rw [he]
  · simp only [Fov.at']
    rw [if_pos hb]
    rfl

/-- A radius-1 field whose data distinguishes every cell, used to
witness the missing-range-check claim. -/
def fovC10 : Fov ℕ := ⟨⟨1, []⟩, 1, 3, 4, fun p => p.toNat⟩

theorem c10_at_no_range_check_witness :
    fovC10.at' 2 0 = fovC10.at' (-1) 1 ∧ (fovC10.at' 2 0).isSome = true :=
  c10_at_no_range_check fovC10
    ⟨by norm_num [fovC10], by norm_num [fovC10], by norm_num [fovC10]⟩
    (by norm_num [fovC10])


/-! ### C5: the layout of the flux LUT -/

theorem uvCols_cons (j n : ℕ) :
    uvCols j (n + 1) =
      ((List.range (j + 1)).map fun (i : ℕ) => ((j : ℤ) + 2, (i : ℤ) + 1)) ++
        uvCols (j + 1) n := by
  unfold uvCols
  rw [List.range'_succ, List.flatMap_cons]

theorem uvCols_getD (d : ℤ × ℤ) :
    ∀ (n j a i : ℕ), j ≤ a → a < j + n → i ≤ a →
      (uvCols j n).getD (tri a + i - tri j) d = ((a : ℤ) + 2, (i : ℤ) + 1) := by
  intro n
  induction n with
  | zero =>
    intro j a i h1 h2 h3
    omega
  | succ n ih =>
    intro j a i h1 h2 h3
    rw [uvCols_cons]
    have hlen : ((List.range (j + 1)).map
        fun (i : ℕ) => ((j : ℤ) + 2, (i : ℤ) + 1)).length = j + 1 := by
      simp
    rcases Nat.eq_or_lt_of_le h1 with rfl | hlt
    · have hidx : tri j + i - tri j = i := by omega
      rw [hidx]
      rw [List.getD_append _ _ _ _ (by omega : i < _)]
      rw [List.getD_eq_getElem _ _ (by simpa using (by omega : i < j + 1))]
      simp
    · have htj : tri (j + 1) = tri j + (j + 1) := rfl
      have hmono : tri (j + 1) ≤ tri a := tri_mono hlt
      rw [List.getD_append_right _ _ _ _ (by omega : _ ≤ tri a + i - tri j)]
      rw [hlen]
      have hsub : tri a + i - tri j - (j + 1) = tri a + i - tri (j + 1) := by
        omega
      rw [hsub]
      exact ih (j + 1) a i (by omega) (by omega) h3

/-- C5: a successfully built flux LUT has exactly
`(radius - 1)·radius/2` entries; they are exactly the per-cell ray
statistics laid out in the order of `uvList` — interior column `u`
ascending from `2` to `radius` and, inside a column, `v` ascending from
`1` to `u - 1` — and the cell `(a + 2, i + 1)` sits at index
`tri a + i`, the consecutive index at which the interior traversal of
`update` consumes it: the call for that cell carries the weights
`lut[tri a + i]` and `1 - lut[tri a + i]`.  The flux field itself is
never modified by `update`. -/
theorem c5_lut_layout (targets : ℕ → ℕ × ℕ) (R rayR rayC : ℕ)
    (lut : List ℚ) (h : calcFluxLut targets R rayR rayC = some lut) :
    lut.length = (R - 1) * R / 2 ∧
    lut = (uvList (R : ℤ)).map (fun uv =>
        (((lutCounts targets R rayC)
            ((uv.2 - 1).toNat * (R - 1) + (uv.1 - 2).toNat)).jump : ℚ) /
        (((lutCounts targets R rayC)
            ((uv.2 - 1).toNat * (R - 1) + (uv.1 - 2).toNat)).total : ℚ)) ∧
    (∀ a i : ℕ, a < R - 1 → i ≤ a →
      (uvList (R : ℤ)).getD (tri a + i) (0, 0) = ((a : ℤ) + 2, (i : ℤ) + 1)) ∧
    (∀ (T : Type) (fov : Fov T) (f : UpdateFn T),
      (fov.update f).1.fluxField = fov.fluxField) ∧
    (∀ (T : Type) (fov : Fov T) (f : UpdateFn T), Fov.WF fov →
      fov.fluxField.fluxLut = lut → 2 ≤ fov.radius →
      ∀ p ∈ octantParams fov.width, ∀ a i : ℕ,
        a < (fov.radius - 1).toNat → i ≤ a →
        ∃ q ∈ traceWithStates fov.data (fov.update f).2,
          (q.2.x, q.2.y) =
            cellWorld p.1 p.2.1 p.2.2.1 p.2.2.2.1 ((a : ℤ) + 2) ((i : ℤ) + 1) ∧
          q.2.influxes.map (fun infl => infl.weight) =
            [lut.getD (tri a + i) 0, 1 - lut.getD (tri a + i) 0]) := by
  unfold calcFluxLut at h
  split_ifs at h with h1 h2 h3 h4
  rw [Option.some_inj] at h
  subst h
  have hR : 1 ≤ R := by omega
  have hfr : ((R : ℤ) - 1).toNat = R - 1 := by omega
  have hemap : lutFromCounts R (lutCounts targets R rayC) =
      (uvList (R : ℤ)).map (fun uv =>
        (((lutCounts targets R rayC)
            ((uv.2 - 1).toNat * (R - 1) + (uv.1 - 2).toNat)).jump : ℚ) /
        (((lutCounts targets R rayC)
            ((uv.2 - 1).toNat * (R - 1) + (uv.1 - 2).toNat)).total : ℚ)) := by
    unfold uvList uvCols lutFromCounts
    rw [hfr, ← List.range_eq_range', List.map_flatMap]
    rw [show (fun (x : ℕ) => (List.range (x + 1)).map fun (y : ℕ) =>
          let rc := lutCounts targets R rayC (y * (R - 1) + x)
          ((rc.jump : ℚ) / (rc.total : ℚ))) =
        (fun (a : ℕ) => ((List.range (a + 1)).map
            (fun (i : ℕ) => ((a : ℤ) + 2, (i : ℤ) + 1))).map
          (fun uv : ℤ × ℤ =>
            (((lutCounts targets R rayC)
                ((uv.2 - 1).toNat * (R - 1) + (uv.1 - 2).toNat)).jump : ℚ) /
            (((lutCounts targets R rayC)
                ((uv.2 - 1).toNat * (R - 1) + (uv.1 - 2).toNat)).total : ℚ)))
      from ?_]
    funext a
    rw [List.map_map]
    refine List.map_congr_left ?_
    intro i hi
    have e1 : ((i : ℤ) + 1 - 1).toNat = i := by omega
    have e2 : ((a : ℤ) + 2 - 2).toNat = a := by omega
    simp only [Function.comp_apply]
    rw [e1, e2]
  refine ⟨?_, hemap, ?_, ?_, ?_⟩
  · rw [hemap, List.length_map]
    have hl := uvCols_length ((R : ℤ) - 1).toNat 0
    rw [hfr, Nat.zero_add] at hl
    have ht := tri_two (R - 1)
    have hm : (R - 1) * (R - 1 + 1) = (R - 1) * R := by
      have hx : R - 1 + 1 = R := by omega
      rw [hx]
    rw [hm] at ht
    have h0 : tri 0 = 0 := rfl
    unfold uvList
    rw [hfr]
    omega
  · intro a i ha hi
    have := uvCols_getD (0, 0) (R - 1) 0 a i (by omega) (by omega) hi
    unfold uvList
    rw [hfr]
    simpa using this
  · intro T fov f
    exact update_fluxField fov f
  · intro T fov f hwf hlut h2r p hp a i ha hi
    obtain ⟨q, hq, hpos, hx, hy, hinfl⟩ :=
      update_interior_call fov f hwf h2r p hp a i ha hi
    refine ⟨q, hq, by rw [hx, hy], ?_⟩
    rw [hinfl, ← hlut]
    rfl

theorem c5_lut_layout_witness :
    ∃ lut, calcFluxLut (fun _ => (1, 0)) 2 3 2 = some lut ∧ lut.length = 1 :=
  ⟨lutFromCounts 2 (lutCounts (fun _ => (1, 0)) 2 2), rfl,
    (c5_lut_layout (fun _ => (1, 0)) 2 3 2
      (lutFromCounts 2 (lutCounts (fun _ => (1, 0)) 2 2)) rfl).1⟩

/-! ### C7: construction assertions -/

/-- C7: with the fixed parameters `ray_radius = 100·radius` and
`ray_count = 10000`, and ray end points satisfying `target_y ≤ target_x`
(which the trigonometric targets of the first octant do),
`FluxField::new(radius)` succeeds exactly when `radius ≥ 1` — for
`radius ≥ 1` the asserted guarantees `ray_count > 1` and
`ray_radius/radius ≥ √2` (squared here: `2·radius² ≤ ray_radius²`)
always hold, and for `radius = 0` the `radius > 0` assertion fires.
`Fov::new(flux_field, radius, init)` succeeds exactly when
`radius ≤ flux_field.radius`. -/
theorem c7_construction_asserts (targets : ℕ → ℕ × ℕ)
    (htargets : ∀ i ∈ List.range 10000, (targets i).2 ≤ (targets i).1)
    (r : ℕ) (T : Type) (ff : FluxField) (radius : ℕ) (init : T) :
    ((FluxField.new targets r).isSome = true ↔ 1 ≤ r) ∧
    ((Fov.new T ff radius init).isSome = true ↔ radius ≤ ff.radius) := by
  constructor
  · unfold FluxField.new
    rcases Nat.eq_zero_or_pos r with rfl | hr
    · have hc : calcFluxLut targets 0 (100 * 0) 10000 = none := by
        unfold calcFluxLut
        rw [if_neg (not_not_intro (by norm_num)), if_pos (by omega)]
      rw [hc]
      simp
    · have hc : calcFluxLut targets r (100 * r) 10000 =
          some (lutFromCounts r (lutCounts targets r 10000)) := by
        unfold calcFluxLut
        rw [if_neg (not_not_intro (by norm_num)),
            if_neg (not_not_intro hr),
            if_neg (not_not_intro (by nlinarith)),
            if_neg (not_not_intro htargets)]
      rw [hc]
      exact ⟨fun _ => by omega, fun _ => rfl⟩
  · unfold Fov.new
    by_cases hle : radius ≤ ff.radius
    · rw [if_pos hle]
      simp [hle]
    · rw [if_neg hle]
      simp [hle]

theorem c7_construction_asserts_witness :
    ((FluxField.new (fun _ => (1, 0)) 1).isSome = true ↔ 1 ≤ 1) ∧
    ((Fov.new ℕ ⟨1, []⟩ 1 0).isSome = true ↔
      1 ≤ (⟨1, []⟩ : FluxField).radius) :=
  c7_construction_asserts (fun _ => (1, 0)) (fun i _ => by norm_num)
    1 ℕ ⟨1, []⟩ 1 0


end FluxFov
